import Mathlib

/-!
Shallow embedding of the polyglot code-graph builder of this repository
(class PolyglotGraphBuilder in src/polyglot_graph.py).

Modelling conventions:
- Python strings are Lean String values (lists of characters); the embedding
  models ASCII source text.  The Python regex class backslash-w is modelled by
  its ASCII fragment [A-Za-z0-9_]; for non-ASCII input Python would accept
  further Unicode word characters, which ASCII text never contains.
- The networkx DiGraph is modelled as an insertion-ordered association list of
  nodes (identifier to attribute record, add_node merges the given keyword
  attributes into an existing entry) plus an insertion-ordered association
  list of edges keyed by (source, target), carrying the relation attribute
  (add_edge overwrites the relation of an existing (source, target) pair).
- Tree-sitter is an external collaborator: a parsed file is represented by the
  capture list its defs query yields.  A capture records its label, the source
  text of the captured node, an identity tag for the node, and the chain of
  ancestor nodes (innermost first), each with its type and optional key child
  (identity tag and text), which is exactly the data get_yaml_full_path reads.
- Fallible input is explicit: the whole try-block of parse_file (read, parse,
  query, capture decoding) is an Option (List Capture), none meaning the
  caught exception path; the resolver re-reads file contents from a snapshot
  association list, a missing entry meaning the caught open failure.
-/

namespace PolyglotGraph

/-- ASCII whitespace characters stripped by the Python str.strip call. -/
def isSpaceChar (c : Char) : Bool :=
  c == ' ' || c == '\t' || c == '\n' || c == '\r' || c == '\x0b' || c == '\x0c'

/-- The single-quote character (written by code point to keep source plain). -/
def squoteChar : Char := Char.ofNat 39

/-- A quote character, double or single, as removed by the two replace calls. -/
def isQuoteChar (c : Char) : Bool := c == '"' || c == squoteChar

/-- Strip leading and trailing whitespace from a character list. -/
def trimSpacesList (l : List Char) : List Char :=
  ((l.dropWhile isSpaceChar).reverse.dropWhile isSpaceChar).reverse

/-- Python str.strip() on a string (ASCII whitespace). -/
def pyStrip (s : String) : String := ⟨trimSpacesList s.data⟩

/-- Python str.replace(c, empty string): drop every occurrence of c. -/
def removeChar (q : Char) (s : String) : String := ⟨s.data.filter (fun c => c != q)⟩

/-- The two replace calls of the source: drop double quotes, then single quotes. -/
def removeQuotes (s : String) : String := removeChar squoteChar (removeChar '"' s)

/-- ASCII fragment of the Python regex class backslash-w: letters, digits, underscore. -/
def isWordChar (c : Char) : Bool := c.isAlphanum || c == '_'

/-- A character accepted by the identifier filter regex of is_valid_identifier:
word characters plus hyphen, dot and colon. -/
def allowedChar (c : Char) : Bool :=
  isWordChar c || c == '-' || c == '.' || c == ':'

/-- PolyglotGraphBuilder.is_valid_identifier: reject the empty name, reject a
name containing any character outside the allowed class, accept otherwise. -/
def is_valid_identifier (name : String) : Bool :=
  if name.data.isEmpty then false
  else if name.data.any (fun c => !(allowedChar c)) then false
  else true

/-- Is the list p a prefix of the second list (Python startswith on text). -/
def isPrefixList : List Char → List Char → Bool
  | [], _ => true
  | _ :: _, [] => false
  | a :: as, b :: bs => a == b && isPrefixList as bs

/-- Does the second list occur as a contiguous sublist of hay. -/
def hasSubChars (needle : List Char) : List Char → Bool
  | [] => isPrefixList needle []
  | c :: rest => isPrefixList needle (c :: rest) || hasSubChars needle rest

/-- Python substring containment: needle in hay. -/
def strContains (hay needle : String) : Bool := hasSubChars needle.data hay.data

/-- Python s.startswith(p). -/
def strStartsWith (s p : String) : Bool := isPrefixList p.data s.data

/-- Python str.split with a one-character separator, accumulator style. -/
def splitOnCharAux (sep : Char) : List Char → List Char → List (List Char)
  | [], acc => [acc.reverse]
  | c :: rest, acc =>
      if c == sep then acc.reverse :: splitOnCharAux sep rest []
      else splitOnCharAux sep rest (c :: acc)

/-- Python str.split(sep) for a one-character separator. -/
def splitOnChar (sep : Char) (s : String) : List String :=
  (splitOnCharAux sep s.data []).map (fun l => ⟨l⟩)

/-- Python name.split(".")[-1]: the final dot-separated segment. -/
def lastDotSegment (name : String) : String := (splitOnChar '.' name).getLastD ""

/-- os.path.splitext on a basename: split off the extension at the last dot,
unless every character before that dot is itself a dot. -/
def splitextList (l : List Char) : List Char × List Char :=
  match l.reverse.findIdx? (fun c => c == '.') with
  | none => (l, [])
  | some i =>
      let stemLen := l.length - (i + 1)
      let stem := l.take stemLen
      if stem.any (fun c => c != '.') then (stem, l.drop stemLen) else (l, [])

/-- os.path.splitext on a basename string. -/
def splitext (s : String) : String × String :=
  let p := splitextList s.data
  (⟨p.1⟩, ⟨p.2⟩)

/-- os.path.basename of a relative path (components separated by slash). -/
def basenameOf (p : String) : String := (splitOnChar '/' p).getLastD p

/-! ## The graph model (networkx DiGraph fragment used by the builder) -/

/-- Node attributes written by the builder: add_node with type and lang for a
file node, add_node with type and name for a definition node.  A field is none
when that keyword was never written for the node. -/
structure NodeAttrs where
  type : Option String := none
  lang : Option String := none
  name : Option String := none
deriving DecidableEq

/-- The directed graph: insertion-ordered association lists for nodes
(unique identifiers) and for edges (keyed by source-target pair, the third
component is the relation attribute). -/
structure Graph where
  nodes : List (String × NodeAttrs) := []
  edges : List (String × String × String) := []
deriving DecidableEq

def Graph.empty : Graph := {}

/-- Update the entry of the given identifier in place with f, or append a new
entry obtained by applying f to the empty attribute record (networkx add_node:
merge keyword attributes into the node's attribute dict). -/
def updateAssoc (f : NodeAttrs → NodeAttrs) (id : String) :
    List (String × NodeAttrs) → List (String × NodeAttrs)
  | [] => [(id, f {})]
  | (k, a) :: rest => if k == id then (k, f a) :: rest else (k, a) :: updateAssoc f id rest

/-- networkx add_node with a set of keyword attributes, modelled as a merge
function on the attribute record. -/
def Graph.addNodeWith (g : Graph) (id : String) (f : NodeAttrs → NodeAttrs) : Graph :=
  { g with nodes := updateAssoc f id g.nodes }

/-- Writing type="file", lang=tag (keyword merge of add_node for a file node). -/
def setFileAttrs (tag : String) (a : NodeAttrs) : NodeAttrs :=
  { a with type := some "file", lang := some tag }

/-- Writing type="definition", name=n (keyword merge of add_node for a
definition node). -/
def setDefAttrs (n : String) (a : NodeAttrs) : NodeAttrs :=
  { a with type := some "definition", name := some n }

/-- networkx add_edge first makes sure both endpoints exist as nodes; a node
created this way has an empty attribute dict. -/
def Graph.ensureNode (g : Graph) (id : String) : Graph :=
  g.addNodeWith id (fun a => a)

/-- Set the relation of the (u, v) edge in place, or append the edge. -/
def updateEdges (u v rel : String) :
    List (String × String × String) → List (String × String × String)
  | [] => [(u, v, rel)]
  | (a, b, r) :: rest =>
      if a == u && b == v then (a, b, rel) :: rest else (a, b, r) :: updateEdges u v rel rest

/-- networkx add_edge(u, v, relation=rel). -/
def Graph.addEdge (g : Graph) (u v rel : String) : Graph :=
  let g2 := (g.ensureNode u).ensureNode v
  { g2 with edges := updateEdges u v rel g2.edges }

/-- Attribute record of a node, if present. -/
def Graph.attrsOf (g : Graph) (id : String) : Option NodeAttrs :=
  (g.nodes.find? (fun p => p.1 == id)).map (fun p => p.2)

/-- Bool test for an edge with a given relation attribute. -/
def Graph.hasEdge (g : Graph) (u v rel : String) : Bool :=
  g.edges.any (fun e => e.1 == u && e.2.1 == v && e.2.2 == rel)

/-! ## Grammar registry -/

/-- The registry lookup of parse_file: exact filename match for Dockerfile,
otherwise extension lookup among the registered keys (the .yml entry is an
alias of the .yaml entry; both resolve).  Returns the registry key, or none
for an unregistered format. -/
def registryLookup (filename : String) : Option String :=
  if filename == "Dockerfile" then some "Dockerfile"
  else
    let e := (splitext filename).2
    if e == ".py" || e == ".yaml" || e == ".yml" || e == ".tf" then some e else none

/-! ## Tree-sitter captures and the YAML path walk -/

/-- An ancestor node on the parent chain of a captured node: its grammar type
and, when the grammar assigns it one, the key child (identity tag and text). -/
structure Ancestor where
  type : String
  key : Option (Nat × String) := none
deriving DecidableEq

/-- One capture of the defs query: label, text of the captured node, an
identity tag for the node, and its ancestor chain (innermost first). -/
structure Capture where
  label : String
  text : String
  selfId : Nat := 0
  ancestors : List Ancestor := []
deriving DecidableEq

/-- The while-loop of get_yaml_full_path: walk the ancestor chain upward;
for each block_mapping_pair ancestor whose key child exists and is not the
captured node itself, push the key text onto the front of the path. -/
def yamlWalk (selfId : Nat) (path : List String) : List Ancestor → List String
  | [] => path
  | a :: rest =>
      let path2 :=
        if a.type == "block_mapping_pair" then
          match a.key with
          | some (kid, ktext) => if kid != selfId then ktext :: path else path
          | none => path
        else path
      yamlWalk selfId path2 rest

/-- PolyglotGraphBuilder.get_yaml_full_path: dotted path from the ancestor
walk, ending in the captured node's own text. -/
def get_yaml_full_path (selfId : Nat) (selfText : String) (ancestors : List Ancestor) : String :=
  String.intercalate "." (yamlWalk selfId [selfText] ancestors)

/-! ## parse_file -/

/-- Extension test selecting the hierarchical YAML naming branch. -/
def isYamlExt (ext : String) : Bool := ext == ".yaml" || ext == ".yml"

/-- Raw name of a capture before cleaning: the dotted YAML path for the YAML
extensions, the captured text otherwise. -/
def rawName (ext : String) (c : Capture) : String :=
  if isYamlExt ext then get_yaml_full_path c.selfId c.text c.ancestors else c.text

/-- The cleaning step of parse_file: drop quote characters, strip whitespace. -/
def cleanRaw (raw : String) : String := pyStrip (removeQuotes raw)

/-- Cleaned name of a capture under a given extension. -/
def cleanName (ext : String) (c : Capture) : String := cleanRaw (rawName ext c)

/-- PolyglotGraphBuilder.get_node_id: relative path, separator, name with
quote characters dropped once more. -/
def mkNodeId (relPath n : String) : String := relPath ++ "::" ++ removeQuotes n

/-- Language tag written on the file node: the extension, or docker when the
extension is empty (the registered extensionless name is Dockerfile). -/
def langTagOf (ext : String) : String := if ext == "" then "docker" else ext

/-- The loop body of parse_file for one capture: only captures labelled name
are considered; the cleaned name must pass is_valid_identifier; then the
definition node is written and the contains edge added. -/
def processCapture (relPath ext : String) (g : Graph) (c : Capture) : Graph :=
  if c.label == "name" then
    let n := cleanName ext c
    if is_valid_identifier n then
      let nodeId := mkNodeId relPath n
      (g.addNodeWith nodeId (setDefAttrs n)).addEdge relPath nodeId "contains"
    else g
  else g

/-- PolyglotGraphBuilder.parse_file.  The registry lookup happens before the
file node is written: an unregistered format returns the graph unchanged.  A
registered file always gets its file node; the try-block outcome is none when
reading, parsing or querying raised (the caught exception path), in which case
the file keeps only its bare file node. -/
def parse_file (g : Graph) (relPath : String) (outcome : Option (List Capture)) : Graph :=
  let filename := basenameOf relPath
  let ext := (splitext filename).2
  match registryLookup filename with
  | none => g
  | some _ =>
      let g1 := g.addNodeWith relPath (setFileAttrs (langTagOf ext))
      match outcome with
      | none => g1
      | some caps => caps.foldl (processCapture relPath ext) g1

/-! ## Cross-reference resolution -/

/-- Append v to the list stored under k, creating the key at the end of the
dict if absent (Python dict insertion order with list append). -/
def dictAppend (d : List (String × List String)) (k v : String) :
    List (String × List String) :=
  match d with
  | [] => [(k, [v])]
  | (k0, vs) :: rest =>
      if k0 == k then (k0, vs ++ [v]) :: rest else (k0, vs) :: dictAppend rest k v

/-- Lookup in the name index (empty list for an absent key). -/
def idxLookup (d : List (String × List String)) (k : String) : List String :=
  ((d.find? (fun p => p.1 == k)).map (fun p => p.2)).getD []

/-- Indexing step of build_cross_reference for one definition node: skip a
falsy (empty) name; record the node under its full name; when the name is
dotted, additionally record it under the final segment. -/
def indexStep (d : List (String × List String)) (p : String × String) :
    List (String × List String) :=
  if p.2.data.isEmpty then d
  else
    let d1 := dictAppend d p.2 p.1
    if p.2.data.contains '.' then dictAppend d1 (lastDotSegment p.2) p.1 else d1

/-- The global name index built over the definition nodes of the graph, in
node insertion order. -/
def buildIndex (defs : List (String × String)) : List (String × List String) :=
  defs.foldl indexStep []

/-- Selector of the indexing loop: a node participates when its type
attribute is definition and it has a name attribute. -/
def defnSel (p : String × NodeAttrs) : Option (String × String) :=
  match p.2.type, p.2.name with
  | some t, some nm => if t == "definition" then some (p.1, nm) else none
  | _, _ => none

/-- Definition nodes of the graph with their name attribute, in insertion
order (the indexing loop of build_cross_reference). -/
def defnListOf (g : Graph) : List (String × String) :=
  g.nodes.filterMap defnSel

/-- File nodes of the graph, in insertion order. -/
def fileNodesOf (g : Graph) : List String :=
  g.nodes.filterMap (fun p =>
    match p.2.type with
    | some t => if t == "file" then some p.1 else none
    | none => none)

/-- Re-reading a file during resolution from the file-system snapshot; none
is the caught open failure (the file is skipped). -/
def readContent (contents : List (String × String)) (f : String) : Option String :=
  (contents.find? (fun p => p.1 == f)).map (fun p => p.2)

/-- Inner loop of the scanning pass: add a references edge to every target of
the matched name, except targets whose identity starts with the scanning file
node's identity. -/
def scanTargets (fileNode : String) (g : Graph) (targets : List String) : Graph :=
  targets.foldl
    (fun g t => if strStartsWith t fileNode then g else g.addEdge fileNode t "references") g

/-- One index entry during scanning: names of more than 3 characters occurring
as a literal substring of the file content fire their targets. -/
def scanEntry (fileNode content : String) (g : Graph) (e : String × List String) : Graph :=
  if 3 < e.1.length && strContains content e.1 then scanTargets fileNode g e.2 else g

/-- Scanning one file node: a failed re-read skips the file entirely. -/
def scanFile (idx : List (String × List String)) (contents : List (String × String))
    (g : Graph) (fileNode : String) : Graph :=
  match readContent contents fileNode with
  | none => g
  | some content => idx.foldl (scanEntry fileNode content) g

/-- PolyglotGraphBuilder.build_cross_reference: build the index over the
current definition nodes, then scan every file node. -/
def build_cross_reference (g : Graph) (contents : List (String × String)) : Graph :=
  let idx := buildIndex (defnListOf g)
  (fileNodesOf g).foldl (scanFile idx contents) g

/-! ## The build driver -/

/-- The extraction phase of build: parse every walked file in order. -/
def ingest (g : Graph) (files : List (String × Option (List Capture))) : Graph :=
  files.foldl (fun g pr => parse_file g pr.1 pr.2) g

/-- PolyglotGraphBuilder.build: extraction over the walked files, then the
cross-reference pass. -/
def build (files : List (String × Option (List Capture)))
    (contents : List (String × String)) : Graph :=
  build_cross_reference (ingest Graph.empty files) contents

/-! ## Derived views used to state the claims -/

/-- The cleaned name a capture contributes as a definition, if any: the
capture must carry the name label and survive the validity filter. -/
def capturedName (ext : String) (c : Capture) : Option String :=
  if c.label == "name" then
    let n := cleanName ext c
    if is_valid_identifier n then some n else none
  else none

/-- Cleaned definition names one walked file contributes, in capture order
(empty for unregistered formats and for the caught failure path). -/
def fileDefNames (relPath : String) (outcome : Option (List Capture)) : List String :=
  match registryLookup (basenameOf relPath) with
  | none => []
  | some _ =>
      match outcome with
      | none => []
      | some caps => caps.filterMap (capturedName (splitext (basenameOf relPath)).2)

/-- All (owning file, cleaned name) pairs a walk extracts. -/
def extractedDefs (files : List (String × Option (List Capture))) : List (String × String) :=
  files.foldr (fun pr acc => (fileDefNames pr.1 pr.2).map (fun n => (pr.1, n)) ++ acc) []

/-- Relative paths of the walked files that have a registered grammar (the
identifiers of the file nodes a build creates). -/
def filePaths (files : List (String × Option (List Capture))) : List String :=
  files.filterMap (fun pr =>
    if (registryLookup (basenameOf pr.1)).isSome then some pr.1 else none)

/-- Incoming contains edges of a node: the edges whose target is the node and
whose relation attribute is contains. -/
def incomingContains (g : Graph) (d : String) : List (String × String × String) :=
  g.edges.filter (fun e => e.2.1 == d && e.2.2 == "contains")

/-- Modelled from the claim wording for the qualified YAML name: the key texts
of the mapping-pair ancestors that properly enclose the captured node (their
key child is a node other than the captured one), innermost first as the
ancestor chain lists them. -/
def enclosingKeys (selfId : Nat) : List Ancestor → List String
  | [] => []
  | a :: rest =>
      match a.key with
      | some kv =>
          if a.type == "block_mapping_pair" && kv.1 != selfId then
            kv.2 :: enclosingKeys selfId rest
          else enclosingKeys selfId rest
      | none => enclosingKeys selfId rest

/-- Modelled from the claim wording for the cleaning step: remove only the
surrounding quote characters and surrounding whitespace of the raw text,
leaving interior characters untouched. -/
def stripSurrounding (s : String) : String :=
  let q := fun c => isQuoteChar c || isSpaceChar c
  ⟨((s.data.dropWhile q).reverse.dropWhile q).reverse⟩

/-! ## Concrete instances used as witnesses and counterexamples -/

/-- A reachable graph: one python file owning one definition. -/
def gC2w : Graph :=
  { nodes := [("a.py", { type := some "file", lang := some ".py" }),
              ("a.py::main_func", { type := some "definition", name := some "main_func" })],
    edges := [("a.py", "a.py::main_func", "contains")] }

/-- Snapshot where the file mentions its own definition by name. -/
def cC2w : List (String × String) := [("a.py", "def main_func(): return main_func")]

/-- Two files where the second relative path extends the first one as a string
and owns a definition of a long name. -/
def gC5x : Graph :=
  { nodes := [("a.py", { type := some "file", lang := some ".py" }),
              ("a.py.yaml", { type := some "file", lang := some ".yaml" }),
              ("a.py.yaml::db_settings",
                { type := some "definition", name := some "db_settings" })],
    edges := [("a.py.yaml", "a.py.yaml::db_settings", "contains")] }

/-- Snapshot where the python file text contains the defined name verbatim. -/
def cC5x : List (String × String) :=
  [("a.py", "print(db_settings)"), ("a.py.yaml", "db_settings: 1")]

/-- Same prefix-collision shape with different names, for the implicit claim. -/
def gC10w : Graph :=
  { nodes := [("b.py", { type := some "file", lang := some ".py" }),
              ("b.py.tf", { type := some "file", lang := some ".tf" }),
              ("b.py.tf::web_server",
                { type := some "definition", name := some "web_server" })],
    edges := [("b.py.tf", "b.py.tf::web_server", "contains")] }

/-- Snapshot where the python file text contains the defined name verbatim. -/
def cC10w : List (String × String) :=
  [("b.py", "launch(web_server)"), ("b.py.tf", "resource web_server")]

/-- The character set the claim names for valid definition names, written as
the regex ranges A-Z, a-z, 0-9 plus underscore, dot, colon, hyphen. -/
def inClaimSet (ch : Char) : Prop :=
  ('A' ≤ ch ∧ ch ≤ 'Z') ∨ ('a' ≤ ch ∧ ch ≤ 'z') ∨ ('0' ≤ ch ∧ ch ≤ '9') ∨
    ch = '_' ∨ ch = '.' ∨ ch = ':' ∨ ch = '-'

instance (ch : Char) : Decidable (inClaimSet ch) := by
  unfold inClaimSet
  infer_instance

/-- A capture whose raw text is a pair of double quotes: it cleans to the
empty name. -/
def cexCapC3 : Capture := { label := "name", text := "\"\"" }

/-- An ordinary well-formed capture. -/
def wCapC3 : Capture := { label := "name", text := "build_graph" }

/-- A YAML file owning one dotted definition name. -/
def gC4w : Graph :=
  { nodes := [("cfg.yaml", { type := some "file", lang := some ".yaml" }),
              ("cfg.yaml::database.db_host",
                { type := some "definition", name := some "database.db_host" })],
    edges := [("cfg.yaml", "cfg.yaml::database.db_host", "contains")] }

/-- A python file whose parse fails and a terraform file that parses, with a
snapshot that is missing the python file at resolution time. -/
def gC6w : Graph :=
  { nodes := [("broken.py", { type := some "file", lang := some ".py" }),
              ("infra.tf", { type := some "file", lang := some ".tf" }),
              ("infra.tf::aws_instance",
                { type := some "definition", name := some "aws_instance" })],
    edges := [("infra.tf", "infra.tf::aws_instance", "contains")] }

/-- Snapshot with the python file gone (concurrent external deletion). -/
def cC6w : List (String × String) := [("infra.tf", "resource aws_instance x")]

/-- State of the extraction fold after a definition of cleaned name n has
been written for file rp: rewriting the definition node and the contains edge
again changes nothing, and the file node key is present. -/
def dupState (rp n : String) (G : Graph) : Prop :=
  updateAssoc (setDefAttrs n) (mkNodeId rp n) G.nodes = G.nodes
  ∧ updateEdges rp (mkNodeId rp n) "contains" G.edges = G.edges
  ∧ (G.nodes.find? (fun p => p.1 == rp)).isSome = true

/-- A two-file walk, each file contributing one definition. -/
def filesC7w : List (String × Option (List Capture)) :=
  [("m.py", some [{ label := "name", text := "calc_sum" }]),
   ("u.py", some [{ label := "name", text := "helper_fn" }])]

/-- Contents of the two files at resolution time. -/
def contentsC7w : List (String × String) :=
  [("m.py", "def calc_sum(): return helper_fn()"), ("u.py", "def helper_fn(): return 1")]

/-! ## Basic lemmas: edges -/

theorem mem_updateEdges_elim {u v rel : String} {es : List (String × String × String)}
    {e : String × String × String} (h : e ∈ updateEdges u v rel es) :
    e ∈ es ∨ e = (u, v, rel) := by
  induction es with
  | nil => simpa [updateEdges] using h
  | cons hd tl ih =>
      obtain ⟨a, b, r⟩ := hd
      by_cases hab : (a == u && b == v) = true
      · rw [updateEdges, if_pos hab] at h
        simp only [Bool.and_eq_true, beq_iff_eq] at hab
        rcases List.mem_cons.mp h with h1 | h1
        · right; rw [h1, hab.1, hab.2]
        · left; exact List.mem_cons_of_mem _ h1
      · rw [updateEdges, if_neg hab] at h
        rcases List.mem_cons.mp h with h1 | h1
        · left; rw [h1]; exact List.mem_cons_self _ _
        · rcases ih h1 with h2 | h2
          · left; exact List.mem_cons_of_mem _ h2
          · right; exact h2

theorem mem_updateEdges_self (u v rel : String) (es : List (String × String × String)) :
    (u, v, rel) ∈ updateEdges u v rel es := by
  induction es with
  | nil => simp [updateEdges]
  | cons hd tl ih =>
      obtain ⟨a, b, r⟩ := hd
      by_cases hab : (a == u && b == v) = true
      · rw [updateEdges, if_pos hab]
        simp only [Bool.and_eq_true, beq_iff_eq] at hab
        rw [hab.1, hab.2]
        exact List.mem_cons_self _ _
      · rw [updateEdges, if_neg hab]
        exact List.mem_cons_of_mem _ ih

theorem mem_updateEdges_keep {u v rel : String} {es : List (String × String × String)}
    {e : String × String × String} (h : e ∈ es)
    (hc : e.2.2 = rel ∨ ¬(e.1 = u ∧ e.2.1 = v)) :
    e ∈ updateEdges u v rel es := by
  induction es with
  | nil => cases h
  | cons hd tl ih =>
      obtain ⟨a, b, r⟩ := hd
      by_cases hab : (a == u && b == v) = true
      · rw [updateEdges, if_pos hab]
        simp only [Bool.and_eq_true, beq_iff_eq] at hab
        rcases List.mem_cons.mp h with h1 | h1
        · rcases hc with hc | hc
          · subst h1
            simp only at hc
            subst hc
            rw [hab.1, hab.2]
            exact List.mem_cons_self _ _
          · exfalso
            apply hc
            subst h1
            exact ⟨hab.1, hab.2⟩
        · exact List.mem_cons_of_mem _ h1
      · rw [updateEdges, if_neg hab]
        rcases List.mem_cons.mp h with h1 | h1
        · rw [h1]; exact List.mem_cons_self _ _
        · exact List.mem_cons_of_mem _ (ih h1)

theorem addEdge_edges (g : Graph) (u v rel : String) :
    (g.addEdge u v rel).edges = updateEdges u v rel g.edges := rfl

/-! ## Basic lemmas: nodes -/

theorem find?_append_some {α : Type} {p : α → Bool} {l : List α} {x : α}
    (h : l.find? p = some x) (l2 : List α) : (l ++ l2).find? p = some x := by
  rw [List.find?_append, h]; rfl

theorem updateAssoc_absent {f : NodeAttrs → NodeAttrs} {j : String} :
    ∀ l : List (String × NodeAttrs), l.find? (fun p => p.1 == j) = none →
      updateAssoc f j l = l ++ [(j, f {})]
  | [], _ => rfl
  | (k, a) :: rest, h => by
      by_cases hk : (k == j) = true
      · exfalso
        have h2 : List.find? (fun p => p.1 == j) ((k, a) :: rest) = some (k, a) :=
          List.find?_cons_of_pos rest (by simp [hk])
        rw [h] at h2
        cases h2
      · have h2 : rest.find? (fun p => p.1 == j) = none :=
          (List.find?_cons_of_neg rest (by simp [hk])).symm.trans h
        rw [updateAssoc, if_neg hk, updateAssoc_absent rest h2]
        rfl

theorem updateAssoc_present_id {j : String} :
    ∀ l : List (String × NodeAttrs), (l.find? (fun p => p.1 == j)).isSome = true →
      updateAssoc (fun a => a) j l = l
  | [], h => by simp [List.find?] at h
  | (k, a) :: rest, h => by
      by_cases hk : (k == j) = true
      · rw [updateAssoc, if_pos hk]
      · have h2 : (rest.find? (fun p => p.1 == j)).isSome = true := by
          rwa [List.find?_cons_of_neg (p := fun p => p.1 == j) rest (by simp [hk])] at h
        rw [updateAssoc, if_neg hk, updateAssoc_present_id rest h2]

theorem find_updateAssoc_ne {f : NodeAttrs → NodeAttrs} {j id : String}
    (hne : (id == j) = false) :
    ∀ l : List (String × NodeAttrs),
      (updateAssoc f j l).find? (fun p => p.1 == id) = l.find? (fun p => p.1 == id)
  | [] => by
      have hji : (j == id) = false := by
        rw [beq_eq_false_iff_ne] at hne ⊢
        exact fun h => hne h.symm
      show List.find? (fun p => p.1 == id) [(j, f {})] = List.find? (fun p => p.1 == id) []
      exact (List.find?_cons_of_neg [] (by simp [hji])).trans rfl
  | (k, a) :: rest => by
      by_cases hk : (k == j) = true
      · have hkid : (k == id) = false := by
          have hkj : k = j := by simpa [beq_iff_eq] using hk
          subst hkj
          rw [beq_eq_false_iff_ne] at hne ⊢
          exact fun h => hne h.symm
        rw [updateAssoc, if_pos hk]
        exact (List.find?_cons_of_neg rest (by simp [hkid])).trans
          (List.find?_cons_of_neg rest (by simp [hkid])).symm
      · rw [updateAssoc, if_neg hk]
        by_cases hkid : (k == id) = true
        · exact (List.find?_cons_of_pos _ (by simp [hkid])).trans
            (List.find?_cons_of_pos rest (by simp [hkid])).symm
        · exact (List.find?_cons_of_neg _ (by simp [hkid])).trans
            ((find_updateAssoc_ne hne rest).trans
              (List.find?_cons_of_neg rest (by simp [hkid])).symm)

theorem attrsOf_addNodeWith_ne (g : Graph) (j id : String) (f : NodeAttrs → NodeAttrs)
    (hne : id ≠ j) : (g.addNodeWith j f).attrsOf id = g.attrsOf id := by
  unfold Graph.attrsOf Graph.addNodeWith
  rw [find_updateAssoc_ne (by simpa using hne)]

theorem attrsOf_ensureNode (g : Graph) (j id : String) {a : NodeAttrs}
    (h : g.attrsOf id = some a) : (g.ensureNode j).attrsOf id = some a := by
  unfold Graph.ensureNode Graph.addNodeWith
  unfold Graph.attrsOf at h ⊢
  cases hf : g.nodes.find? (fun p => p.1 == j) with
  | some x => rw [updateAssoc_present_id _ (by rw [hf]; rfl)]; exact h
  | none =>
      rw [updateAssoc_absent _ hf]
      cases hfi : g.nodes.find? (fun p => p.1 == id) with
      | none => rw [hfi] at h; cases h
      | some y =>
          rw [find?_append_some hfi]
          rw [hfi] at h
          exact h

theorem attrsOf_addEdge (g : Graph) (u v rel id : String) {a : NodeAttrs}
    (h : g.attrsOf id = some a) : (g.addEdge u v rel).attrsOf id = some a := by
  have h2 := attrsOf_ensureNode (g.ensureNode u) v id (attrsOf_ensureNode g u id h)
  exact h2

/-! ## Basic lemmas: strings -/

theorem isPrefixList_self_append : ∀ l m : List Char, isPrefixList l (l ++ m) = true
  | [], _ => rfl
  | c :: cs, m => by
      rw [List.cons_append, isPrefixList]
      simp [isPrefixList_self_append cs m]

theorem strStartsWith_append (f s : String) : strStartsWith (f ++ s) f = true := by
  unfold strStartsWith
  rw [String.data_append]
  exact isPrefixList_self_append _ _

theorem mkNodeId_startsWith (p n : String) : strStartsWith (mkNodeId p n) p = true := by
  unfold mkNodeId
  rw [String.append_assoc]
  exact strStartsWith_append _ _

theorem mkNodeId_ne (p n : String) : mkNodeId p n ≠ p := by
  intro h
  have hl := congrArg String.length h
  rw [mkNodeId, String.length_append, String.length_append] at hl
  have : String.length "::" = 2 := rfl
  omega

theorem mkNodeId_inj_name {p n1 n2 : String} (h : mkNodeId p n1 = mkNodeId p n2) :
    removeQuotes n1 = removeQuotes n2 := by
  unfold mkNodeId at h
  have h2 := congrArg String.data h
  rw [String.data_append, String.data_append, String.data_append, String.data_append,
    List.append_assoc, List.append_assoc] at h2
  have h3 := List.append_cancel_left h2
  have h4 := List.append_cancel_left h3
  exact String.ext h4

/-! ## Resolver lemmas: what edges the scanning pass can and must add -/

theorem scanTargets_edges_elim {f : String} :
    ∀ (ts : List String) (g : Graph) (e : String × String × String),
      e ∈ (scanTargets f g ts).edges →
      e ∈ g.edges ∨ ∃ t, t ∈ ts ∧ e = (f, t, "references") ∧ strStartsWith t f = false
  | [], _, _, h => Or.inl h
  | t :: ts, g, e, h => by
      have h2 : scanTargets f g (t :: ts) =
          scanTargets f (if strStartsWith t f then g else g.addEdge f t "references") ts := rfl
      rw [h2] at h
      by_cases hs : strStartsWith t f
      · rw [if_pos hs] at h
        rcases scanTargets_edges_elim ts g e h with h3 | ⟨t2, ht2, h3⟩
        · exact Or.inl h3
        · exact Or.inr ⟨t2, List.mem_cons_of_mem _ ht2, h3⟩
      · rw [if_neg hs] at h
        rcases scanTargets_edges_elim ts _ e h with h3 | ⟨t2, ht2, h3⟩
        · rw [addEdge_edges] at h3
          rcases mem_updateEdges_elim h3 with h4 | h4
          · exact Or.inl h4
          · refine Or.inr ⟨t, List.mem_cons_self _ _, h4, ?_⟩
            exact Bool.of_not_eq_true hs
        · exact Or.inr ⟨t2, List.mem_cons_of_mem _ ht2, h3⟩

theorem scanTargets_ref_keep {f : String} :
    ∀ (ts : List String) (g : Graph) (a b : String),
      (a, b, "references") ∈ g.edges → (a, b, "references") ∈ (scanTargets f g ts).edges
  | [], _, _, _, h => h
  | t :: ts, g, a, b, h => by
      have h2 : scanTargets f g (t :: ts) =
          scanTargets f (if strStartsWith t f then g else g.addEdge f t "references") ts := rfl
      rw [h2]
      by_cases hs : strStartsWith t f
      · rw [if_pos hs]
        exact scanTargets_ref_keep ts g a b h
      · rw [if_neg hs]
        refine scanTargets_ref_keep ts _ a b ?_
        rw [addEdge_edges]
        exact mem_updateEdges_keep h (Or.inl rfl)

theorem scanTargets_adds {f : String} :
    ∀ (ts : List String) (g : Graph) (t : String), t ∈ ts → strStartsWith t f = false →
      (f, t, "references") ∈ (scanTargets f g ts).edges
  | [], _, _, h, _ => absurd h (List.not_mem_nil _)
  | t0 :: ts, g, t, h, hs => by
      have h2 : scanTargets f g (t0 :: ts) =
          scanTargets f (if strStartsWith t0 f then g else g.addEdge f t0 "references") ts := rfl
      rw [h2]
      rcases List.mem_cons.mp h with h1 | h1
      · subst h1
        rw [if_neg (by simp [hs])]
        refine scanTargets_ref_keep ts _ f t ?_
        rw [addEdge_edges]
        exact mem_updateEdges_self _ _ _ _
      · exact scanTargets_adds ts _ t h1 hs

theorem scanIdx_edges_elim {f content : String} :
    ∀ (idx : List (String × List String)) (g : Graph) (e : String × String × String),
      e ∈ (idx.foldl (scanEntry f content) g).edges →
      e ∈ g.edges ∨
        ∃ nm ts, (nm, ts) ∈ idx ∧ 3 < nm.length ∧ strContains content nm = true ∧
          ∃ t, t ∈ ts ∧ e = (f, t, "references") ∧ strStartsWith t f = false
  | [], _, _, h => Or.inl h
  | (nm, ts) :: idx, g, e, h => by
      rw [List.foldl_cons] at h
      rcases scanIdx_edges_elim idx _ e h with h1 | ⟨nm2, ts2, hm, h1⟩
      · unfold scanEntry at h1
        by_cases hc : (decide (3 < nm.length) && strContains content nm) = true
        · rw [if_pos hc] at h1
          simp only [Bool.and_eq_true, decide_eq_true_eq] at hc
          rcases scanTargets_edges_elim ts g e h1 with h2 | ⟨t, ht, h2⟩
          · exact Or.inl h2
          · exact Or.inr ⟨nm, ts, List.mem_cons_self _ _, hc.1, hc.2, t, ht, h2⟩
        · rw [if_neg hc] at h1
          exact Or.inl h1
      · exact Or.inr ⟨nm2, ts2, List.mem_cons_of_mem _ hm, h1⟩

theorem scanIdx_ref_keep {f content : String} :
    ∀ (idx : List (String × List String)) (g : Graph) (a b : String),
      (a, b, "references") ∈ g.edges →
      (a, b, "references") ∈ (idx.foldl (scanEntry f content) g).edges
  | [], _, _, _, h => h
  | (nm, ts) :: idx, g, a, b, h => by
      rw [List.foldl_cons]
      refine scanIdx_ref_keep idx _ a b ?_
      unfold scanEntry
      by_cases hc : (decide (3 < nm.length) && strContains content nm) = true
      · rw [if_pos hc]
        exact scanTargets_ref_keep ts g a b h
      · rw [if_neg hc]
        exact h

theorem scanIdx_adds {f content : String} :
    ∀ (idx : List (String × List String)) (g : Graph) (nm : String) (ts : List String)
      (t : String), (nm, ts) ∈ idx → 3 < nm.length → strContains content nm = true →
      t ∈ ts → strStartsWith t f = false →
      (f, t, "references") ∈ (idx.foldl (scanEntry f content) g).edges
  | [], _, _, _, _, hm, _, _, _, _ => absurd hm (List.not_mem_nil _)
  | (nm0, ts0) :: idx, g, nm, ts, t, hm, hlen, hcon, ht, hs => by
      rw [List.foldl_cons]
      rcases List.mem_cons.mp hm with h1 | h1
      · obtain ⟨h2, h3⟩ := Prod.mk.injEq .. ▸ h1
        subst h2; subst h3
        refine scanIdx_ref_keep idx _ f t ?_
        unfold scanEntry
        rw [if_pos (by simp [hlen, hcon])]
        exact scanTargets_adds ts g t ht hs
      · exact scanIdx_adds idx _ nm ts t h1 hlen hcon ht hs

theorem scanFiles_edges_elim {idx : List (String × List String)}
    {contents : List (String × String)} :
    ∀ (fls : List String) (g : Graph) (e : String × String × String),
      e ∈ (fls.foldl (scanFile idx contents) g).edges →
      e ∈ g.edges ∨
        ∃ u, u ∈ fls ∧ ∃ content, readContent contents u = some content ∧
          ∃ nm ts, (nm, ts) ∈ idx ∧ 3 < nm.length ∧ strContains content nm = true ∧
            ∃ t, t ∈ ts ∧ e = (u, t, "references") ∧ strStartsWith t u = false
  | [], _, _, h => Or.inl h
  | u :: fls, g, e, h => by
      rw [List.foldl_cons] at h
      rcases scanFiles_edges_elim fls _ e h with h1 | ⟨u2, hu2, h1⟩
      · unfold scanFile at h1
        cases hr : readContent contents u with
        | none => rw [hr] at h1; exact Or.inl h1
        | some content =>
            rw [hr] at h1
            rcases scanIdx_edges_elim idx g e h1 with h2 | ⟨nm, ts, hm, hlen, hcon, t, ht, h2⟩
            · exact Or.inl h2
            · exact Or.inr ⟨u, List.mem_cons_self _ _, content, hr, nm, ts, hm, hlen, hcon,
                t, ht, h2⟩
      · exact Or.inr ⟨u2, List.mem_cons_of_mem _ hu2, h1⟩

theorem scanFiles_ref_keep {idx : List (String × List String)}
    {contents : List (String × String)} :
    ∀ (fls : List String) (g : Graph) (a b : String),
      (a, b, "references") ∈ g.edges →
      (a, b, "references") ∈ (fls.foldl (scanFile idx contents) g).edges
  | [], _, _, _, h => h
  | u :: fls, g, a, b, h => by
      rw [List.foldl_cons]
      refine scanFiles_ref_keep fls _ a b ?_
      unfold scanFile
      cases hr : readContent contents u with
      | none => exact h
      | some content => exact scanIdx_ref_keep idx g a b h

theorem scanFiles_adds {idx : List (String × List String)}
    {contents : List (String × String)} :
    ∀ (fls : List String) (g : Graph) (u content nm : String) (ts : List String) (t : String),
      u ∈ fls → readContent contents u = some content → (nm, ts) ∈ idx → 3 < nm.length →
      strContains content nm = true → t ∈ ts → strStartsWith t u = false →
      (u, t, "references") ∈ (fls.foldl (scanFile idx contents) g).edges
  | [], _, _, _, _, _, _, hu, _, _, _, _, _, _ => absurd hu (List.not_mem_nil _)
  | u0 :: fls, g, u, content, nm, ts, t, hu, hr, hm, hlen, hcon, ht, hs => by
      rw [List.foldl_cons]
      rcases List.mem_cons.mp hu with h1 | h1
      · subst h1
        refine scanFiles_ref_keep fls _ u t ?_
        unfold scanFile
        rw [hr]
        exact scanIdx_adds idx g nm ts t hm hlen hcon ht hs
      · exact scanFiles_adds fls _ u content nm ts t h1 hr hm hlen hcon ht hs

/-- Exact characterization of the references edges present after the
cross-reference pass: an edge was already present, or the scanning pass
produced it from an indexed name of more than 3 characters occurring in the
re-read content of the source file node, subject to the startswith guard. -/
theorem crossRef_edge_mem_iff (g : Graph) (contents : List (String × String)) (u t : String) :
    (u, t, "references") ∈ (build_cross_reference g contents).edges ↔
      (u, t, "references") ∈ g.edges ∨
        (u ∈ fileNodesOf g ∧ ∃ content, readContent contents u = some content ∧
          ∃ nm ts, (nm, ts) ∈ buildIndex (defnListOf g) ∧ t ∈ ts ∧ 3 < nm.length ∧
            strContains content nm = true ∧ strStartsWith t u = false) := by
  constructor
  · intro h
    unfold build_cross_reference at h
    rcases scanFiles_edges_elim (fileNodesOf g) g _ h with h1 | ⟨u2, hu2, content, hr, nm, ts,
      hm, hlen, hcon, t2, ht2, heq, hs⟩
    · exact Or.inl h1
    · simp only [Prod.mk.injEq] at heq
      obtain ⟨e1, e2, -⟩ := heq
      subst e1; subst e2
      exact Or.inr ⟨hu2, content, hr, nm, ts, hm, ht2, hlen, hcon, hs⟩
  · intro h
    unfold build_cross_reference
    rcases h with h | ⟨hu, content, hr, nm, ts, hm, ht, hlen, hcon, hs⟩
    · exact scanFiles_ref_keep (fileNodesOf g) g u t h
    · exact scanFiles_adds (fileNodesOf g) g u content nm ts t hu hr hm hlen hcon ht hs

/-! ## Claim C1 -/

/-- C1, counterexample: README.md has no registered grammar; parse_file
returns before add_node, so no bare file node is created (the claim asserts
one is), and the graph is untouched. -/
theorem c1_unregistered_counterexample :
    registryLookup "README.md" = none
    ∧ (parse_file Graph.empty "README.md" (some [])).attrsOf "README.md" = none
    ∧ parse_file Graph.empty "README.md" (some []) = Graph.empty := by
  refine ⟨rfl, rfl, rfl⟩

/-- C1, amended: a file whose basename and extension have no registered
grammar config is skipped entirely: no node of any kind is created, the graph
is returned unchanged, and no error is raised. -/
theorem c1_unregistered_amended (g : Graph) (relPath : String)
    (outcome : Option (List Capture))
    (h : registryLookup (basenameOf relPath) = none) :
    parse_file g relPath outcome = g := by
  simp only [parse_file, h]

/-- C1 witness: the amended theorem applied to README.md. -/
theorem c1_unregistered_amended_witness :
    registryLookup (basenameOf "docs/README.md") = none
    ∧ parse_file gC2w "docs/README.md" (some []) = gC2w :=
  ⟨by decide, c1_unregistered_amended gC2w "docs/README.md" (some []) (by decide)⟩

/-! ## Claim C2 -/

/-- C2: the cross-reference resolver never adds a references edge from a file
node f to a definition node whose identity is f joined with the separator and
a name, i.e. a definition f itself owns, in any graph state. -/
theorem c2_no_self_reference_edge (g : Graph) (contents : List (String × String))
    (f nm : String)
    (hpre : (f, f ++ "::" ++ nm, "references") ∉ g.edges) :
    (f, f ++ "::" ++ nm, "references") ∉ (build_cross_reference g contents).edges := by
  intro h
  rcases (crossRef_edge_mem_iff g contents f (f ++ "::" ++ nm)).mp h with
    h1 | ⟨-, content, -, nm2, ts, -, -, -, -, hs⟩
  · exact hpre h1
  · rw [String.append_assoc, strStartsWith_append] at hs
    cases hs

/-- C2 witness: a graph with one python file owning one definition whose name
occurs in the file text; no self references edge appears. -/
theorem c2_no_self_reference_edge_witness :
    ("a.py", "a.py" ++ "::" ++ "main_func", "references") ∉ gC2w.edges
    ∧ ("a.py", "a.py" ++ "::" ++ "main_func", "references") ∉
        (build_cross_reference gC2w cC2w).edges :=
  ⟨by decide, c2_no_self_reference_edge gC2w cC2w "a.py" "main_func" (by decide)⟩

/-! ## Claim C5 -/

/-- C5, counterexample: the name db_settings has length over 3 and occurs
verbatim in the readable text of the other file a.py, and the definition node
is mapped under the name in the index, yet no references edge is produced,
because the definition node identity starts with the scanning file identity. -/
theorem c5_length_floor_counterexample :
    3 < ("db_settings" : String).length
    ∧ strContains "print(db_settings)" "db_settings" = true
    ∧ "a.py.yaml::db_settings" ∈ idxLookup (buildIndex (defnListOf gC5x)) "db_settings"
    ∧ readContent cC5x "a.py" = some "print(db_settings)"
    ∧ (build_cross_reference gC5x cC5x).hasEdge "a.py" "a.py.yaml::db_settings"
        "references" = false := by
  refine ⟨by decide, by decide, by decide, by decide, by decide⟩

/-- C5, amended: a references edge is present after resolution exactly when it
was already present, or the scanning file node re-reads some content in which
an indexed name of length at least 4 occurs as a case-sensitive literal
substring, the target is mapped under that name, and the target identity does
not start with the scanning file identity.  In particular an indexed name of
length at most 3 never produces an edge, and a name of length at least 4
produces edges to every mapped target except those caught by the startswith
guard. -/
theorem c5_length_floor_amended (g : Graph) (contents : List (String × String))
    (u t : String) :
    (u, t, "references") ∈ (build_cross_reference g contents).edges ↔
      (u, t, "references") ∈ g.edges ∨
        (u ∈ fileNodesOf g ∧ ∃ content, readContent contents u = some content ∧
          ∃ nm ts, (nm, ts) ∈ buildIndex (defnListOf g) ∧ t ∈ ts ∧ 3 < nm.length ∧
            strContains content nm = true ∧ strStartsWith t u = false) :=
  crossRef_edge_mem_iff g contents u t

/-! ## Claim C10 -/

/-- C10: the self-reference guard is a string prefix comparison, so the
resolver adds no references edge from a file node to any node whose identity
string starts with the file node identity, even one owned by a different
file. -/
theorem c10_prefix_guard (g : Graph) (contents : List (String × String)) (f t : String)
    (hpre : (f, t, "references") ∉ g.edges)
    (hs : strStartsWith t f = true) :
    (f, t, "references") ∉ (build_cross_reference g contents).edges := by
  intro h
  rcases (crossRef_edge_mem_iff g contents f t).mp h with
    h1 | ⟨-, content, -, nm2, ts, -, -, -, -, hs2⟩
  · exact hpre h1
  · rw [hs] at hs2
    cases hs2

/-- C10 witness: the file b.py never gets a references edge to the definition
of web_server owned by the distinct file b.py.tf, although the name occurs in
the text of b.py, because the target identity starts with b.py. -/
theorem c10_prefix_guard_witness :
    ("b.py", "b.py.tf::web_server", "references") ∉ gC10w.edges
    ∧ strStartsWith "b.py.tf::web_server" "b.py" = true
    ∧ ("b.py", "b.py.tf::web_server", "references") ∉
        (build_cross_reference gC10w cC10w).edges :=
  ⟨by decide, by decide,
    c10_prefix_guard gC10w cC10w "b.py" "b.py.tf::web_server" (by decide) (by decide)⟩

/-! ## Claim C3 -/

theorem allowedChar_iff (ch : Char) : allowedChar ch = true ↔ inClaimSet ch := by
  unfold allowedChar isWordChar inClaimSet
  simp only [Char.isAlphanum, Char.isAlpha, Char.isDigit, Char.isUpper, Char.isLower,
    Bool.or_eq_true, Bool.and_eq_true, decide_eq_true_eq, beq_iff_eq, Char.le_def, ge_iff_le]
  constructor
  · intro h
    have h2 : (Char.val 'A' ≤ ch.val ∧ ch.val ≤ Char.val 'Z' ∨
        Char.val 'a' ≤ ch.val ∧ ch.val ≤ Char.val 'z' ∨
        Char.val '0' ≤ ch.val ∧ ch.val ≤ Char.val '9' ∨
        ch = '_' ∨ ch = '.' ∨ ch = ':' ∨ ch = '-') ↔
        ((((((65 ≤ ch.val ∧ ch.val ≤ 90 ∨ 97 ≤ ch.val ∧ ch.val ≤ 122) ∨
          48 ≤ ch.val ∧ ch.val ≤ 57) ∨ ch = '_') ∨ ch = '-') ∨ ch = '.') ∨ ch = ':') := by
      constructor <;> intro h3 <;> tauto
    exact h2.mpr h
  · intro h
    tauto

theorem string_ne_empty_of_data {n : String} (h : n.data ≠ []) : n ≠ "" := by
  intro he
  apply h
  rw [he]

theorem is_valid_identifier_iff (n : String) :
    is_valid_identifier n = true ↔ (n ≠ "" ∧ ∀ ch ∈ n.data, inClaimSet ch) := by
  unfold is_valid_identifier
  constructor
  · intro h
    by_cases h1 : n.data.isEmpty = true
    · rw [if_pos h1] at h; cases h
    · rw [if_neg h1] at h
      by_cases h2 : n.data.any (fun c => !(allowedChar c)) = true
      · rw [if_pos h2] at h; cases h
      · refine ⟨string_ne_empty_of_data ?_, ?_⟩
        · intro hd
          apply h1
          rw [hd]
          rfl
        · intro ch hch
          rw [← allowedChar_iff]
          by_contra hn
          apply h2
          rw [List.any_eq_true]
          refine ⟨ch, hch, ?_⟩
          rw [Bool.not_eq_true] at hn
          simp [hn]
  · intro ⟨hne, hall⟩
    have h1 : n.data.isEmpty = false := by
      cases hd : n.data with
      | nil => exact absurd (String.ext hd) hne
      | cons c cs => rfl
    rw [if_neg (by simp [h1])]
    have h2 : n.data.any (fun c => !(allowedChar c)) = false := by
      rw [← Bool.not_eq_true, List.any_eq_true]
      rintro ⟨ch, hch, hbad⟩
      rw [Bool.not_eq_true'] at hbad
      have := (allowedChar_iff ch).mpr (hall ch hch)
      rw [this] at hbad
      cases hbad
    rw [if_neg (by simp [h2])]

theorem find_updateAssoc_self (f : NodeAttrs → NodeAttrs) (i : String) :
    ∀ l : List (String × NodeAttrs),
      (updateAssoc f i l).find? (fun p => p.1 == i) =
        some (i, f (((l.find? (fun p => p.1 == i)).map (fun p => p.2)).getD {}))
  | [] => by
      show List.find? (fun p => p.1 == i) [(i, f {})] = _
      rw [List.find?_cons_of_pos [] (by simp)]
      rfl
  | (k, a) :: rest => by
      by_cases hk : (k == i) = true
      · rw [updateAssoc, if_pos hk]
        have hk2 : k = i := by simpa using hk
        subst hk2
        rw [List.find?_cons_of_pos _ (by simp), List.find?_cons_of_pos rest (by simp)]
        rfl
      · rw [updateAssoc, if_neg hk]
        rw [List.find?_cons_of_neg _ (by simp [hk]), List.find?_cons_of_neg rest (by simp [hk])]
        exact find_updateAssoc_self f i rest

theorem attrsOf_addNodeWith_self (g : Graph) (i : String) (f : NodeAttrs → NodeAttrs) :
    (g.addNodeWith i f).attrsOf i = some (f ((g.attrsOf i).getD {})) := by
  show ((updateAssoc f i g.nodes).find? (fun p => p.1 == i)).map (fun p => p.2) = _
  rw [find_updateAssoc_self f i g.nodes]
  rfl

theorem parse_file_single (relPath : String) (c : Capture) (cfg : String)
    (hr : registryLookup (basenameOf relPath) = some cfg) :
    parse_file Graph.empty relPath (some [c]) =
      processCapture relPath (splitext (basenameOf relPath)).2
        (Graph.empty.addNodeWith relPath
          (setFileAttrs (langTagOf (splitext (basenameOf relPath)).2))) c := by
  simp only [parse_file, hr, List.foldl_cons, List.foldl_nil]

/-- C3, counterexample: the capture whose raw text is two double quotes cleans
to the empty name; every character of the cleaned name is (vacuously) in the
claimed character set, yet no definition node is created. -/
theorem c3_name_filter_counterexample :
    (∀ ch ∈ (cleanName ".py" cexCapC3).data, inClaimSet ch)
    ∧ cleanName ".py" cexCapC3 = ""
    ∧ defnListOf (parse_file Graph.empty "a.py" (some [cexCapC3])) = [] := by
  refine ⟨by decide, by decide, by decide⟩

/-- C3, amended: for a capture processed by the definition extractor, a
definition node is created if and only if the cleaned name is nonempty and
every character of it lies in the claimed set (for the ASCII texts modelled
here; the Python word class additionally admits non-ASCII word characters). -/
theorem c3_name_filter_amended (relPath : String) (c : Capture)
    (hreg : (registryLookup (basenameOf relPath)).isSome = true)
    (hlab : c.label = "name") :
    ((∃ a, (parse_file Graph.empty relPath (some [c])).attrsOf
        (mkNodeId relPath (cleanName (splitext (basenameOf relPath)).2 c)) = some a ∧
        a.type = some "definition")
      ↔ (cleanName (splitext (basenameOf relPath)).2 c ≠ ""
          ∧ ∀ ch ∈ (cleanName (splitext (basenameOf relPath)).2 c).data, inClaimSet ch)) := by
  cases hr : registryLookup (basenameOf relPath) with
  | none => rw [hr] at hreg; cases hreg
  | some cfg =>
      rw [parse_file_single relPath c cfg hr]
      unfold processCapture
      rw [if_pos (by simp [hlab])]
      by_cases hv : is_valid_identifier (cleanName (splitext (basenameOf relPath)).2 c) = true
      · rw [if_pos hv]
        rw [← is_valid_identifier_iff]
        simp only [hv, iff_true]
        set n := cleanName (splitext (basenameOf relPath)).2 c with hn
        set g1 := Graph.empty.addNodeWith relPath
          (setFileAttrs (langTagOf (splitext (basenameOf relPath)).2)) with hg1
        refine ⟨setDefAttrs n ((g1.attrsOf (mkNodeId relPath n)).getD {}), ?_, rfl⟩
        exact attrsOf_addEdge _ relPath (mkNodeId relPath n) "contains" _
          (attrsOf_addNodeWith_self g1 (mkNodeId relPath n) (setDefAttrs n))
      · rw [if_neg hv]
        rw [← is_valid_identifier_iff]
        constructor
        · rintro ⟨a, ha, -⟩
          rw [attrsOf_addNodeWith_ne _ _ _ _ (mkNodeId_ne relPath _)] at ha
          have h0 : (none : Option NodeAttrs) = some a := ha
          cases h0
        · intro h
          exact absurd h hv

/-- C3 witness: a well-formed capture on a python file creates its definition
node, and its cleaned name is nonempty with every character in the set. -/
theorem c3_name_filter_amended_witness :
    (registryLookup (basenameOf "m.py")).isSome = true
    ∧ wCapC3.label = "name"
    ∧ ((∃ a, (parse_file Graph.empty "m.py" (some [wCapC3])).attrsOf
        (mkNodeId "m.py" (cleanName (splitext (basenameOf "m.py")).2 wCapC3)) = some a ∧
        a.type = some "definition")
      ↔ (cleanName (splitext (basenameOf "m.py")).2 wCapC3 ≠ ""
          ∧ ∀ ch ∈ (cleanName (splitext (basenameOf "m.py")).2 wCapC3).data, inClaimSet ch)) :=
  ⟨by decide, rfl, c3_name_filter_amended "m.py" wCapC3 (by decide) rfl⟩

/-! ## Claim C4 -/

theorem idxLookup_dictAppend_self (k v : String) :
    ∀ d : List (String × List String), idxLookup (dictAppend d k v) k = idxLookup d k ++ [v]
  | [] => by
      show idxLookup [(k, [v])] k = idxLookup [] k ++ [v]
      unfold idxLookup
      rw [List.find?_cons_of_pos [] (by simp)]
      rfl
  | (k0, vs) :: rest => by
      by_cases hk : (k0 == k) = true
      · rw [dictAppend, if_pos hk]
        unfold idxLookup
        rw [List.find?_cons_of_pos rest (by simp [hk]),
          List.find?_cons_of_pos rest (by simp [hk])]
        rfl
      · rw [dictAppend, if_neg hk]
        unfold idxLookup
        rw [List.find?_cons_of_neg _ (by simp [hk]), List.find?_cons_of_neg rest (by simp [hk])]
        exact idxLookup_dictAppend_self k v rest

theorem idxLookup_dictAppend_ne (k v k2 : String) (hne : k2 ≠ k) :
    ∀ d : List (String × List String), idxLookup (dictAppend d k v) k2 = idxLookup d k2
  | [] => by
      show idxLookup [(k, [v])] k2 = idxLookup [] k2
      unfold idxLookup
      rw [List.find?_cons_of_neg [] (by simp; exact fun h => hne h.symm)]
  | (k0, vs) :: rest => by
      by_cases hk : (k0 == k) = true
      · rw [dictAppend, if_pos hk]
        have hne2 : (k0 == k2) = false := by
          have : k0 = k := by simpa using hk
          subst this
          simp only [beq_eq_false_iff_ne]
          exact fun h => hne h.symm
        unfold idxLookup
        rw [List.find?_cons_of_neg rest (by simp [hne2]),
          List.find?_cons_of_neg rest (by simp [hne2])]
      · rw [dictAppend, if_neg hk]
        by_cases hk2 : (k0 == k2) = true
        · unfold idxLookup
          rw [List.find?_cons_of_pos _ (by simp [hk2]),
            List.find?_cons_of_pos rest (by simp [hk2])]
        · unfold idxLookup
          rw [List.find?_cons_of_neg _ (by simp [hk2]),
            List.find?_cons_of_neg rest (by simp [hk2])]
          exact idxLookup_dictAppend_ne k v k2 hne rest

theorem idxLookup_mono_dictAppend {d : List (String × List String)} {k2 x : String}
    (k v : String) (h : x ∈ idxLookup d k2) : x ∈ idxLookup (dictAppend d k v) k2 := by
  by_cases he : k2 = k
  · subst he
    rw [idxLookup_dictAppend_self]
    exact List.mem_append_left _ h
  · rw [idxLookup_dictAppend_ne k v k2 he]
    exact h

theorem idxLookup_mono_indexStep {d : List (String × List String)} {k2 x : String}
    (p : String × String) (h : x ∈ idxLookup d k2) : x ∈ idxLookup (indexStep d p) k2 := by
  unfold indexStep
  by_cases h1 : p.2.data.isEmpty = true
  · rw [if_pos h1]; exact h
  · rw [if_neg h1]
    by_cases h2 : p.2.data.contains '.' = true
    · rw [if_pos h2]
      exact idxLookup_mono_dictAppend _ _ (idxLookup_mono_dictAppend _ _ h)
    · rw [if_neg h2]
      exact idxLookup_mono_dictAppend _ _ h

theorem idxLookup_mono_foldl {k2 x : String} :
    ∀ (defs : List (String × String)) (d : List (String × List String)),
      x ∈ idxLookup d k2 → x ∈ idxLookup (defs.foldl indexStep d) k2
  | [], _, h => h
  | p :: rest, d, h => by
      rw [List.foldl_cons]
      exact idxLookup_mono_foldl rest _ (idxLookup_mono_indexStep p h)

theorem data_ne_nil_of_contains {nm : String} (h : nm.data.contains '.' = true) :
    nm.data.isEmpty = false := by
  cases hd : nm.data with
  | nil => rw [hd] at h; cases h
  | cons c cs => rfl

theorem buildIndex_mem :
    ∀ (defs : List (String × String)) (d : List (String × List String)) (id nm : String),
      (id, nm) ∈ defs → nm.data.contains '.' = true →
      id ∈ idxLookup (defs.foldl indexStep d) nm
        ∧ id ∈ idxLookup (defs.foldl indexStep d) (lastDotSegment nm)
  | [], _, _, _, hmem, _ => absurd hmem (List.not_mem_nil _)
  | p :: rest, d, id, nm, hmem, hdot => by
      rw [List.foldl_cons]
      rcases List.mem_cons.mp hmem with h1 | h1
      · have hstep : indexStep d p = dictAppend (dictAppend d nm id) (lastDotSegment nm) id := by
          rw [← h1]
          unfold indexStep
          rw [if_neg (by simp [data_ne_nil_of_contains hdot]), if_pos hdot]
        rw [hstep]
        constructor
        · refine idxLookup_mono_foldl rest _ (idxLookup_mono_dictAppend _ _ ?_)
          rw [idxLookup_dictAppend_self]
          exact List.mem_append_right _ (List.mem_singleton.mpr rfl)
        · refine idxLookup_mono_foldl rest _ ?_
          rw [idxLookup_dictAppend_self]
          exact List.mem_append_right _ (List.mem_singleton.mpr rfl)
      · exact buildIndex_mem rest _ id nm h1 hdot

/-- C4: for every definition node with a dotted name, the global index maps
both the full dotted name and its final dot-segment to a list containing that
node, and index entries only ever grow (appending, never replacing): any
membership in a lookup list before further indexing steps survives them. -/
theorem c4_alias_index (g : Graph) (id nm : String)
    (hmem : (id, nm) ∈ defnListOf g)
    (hdot : nm.data.contains '.' = true) :
    (id ∈ idxLookup (buildIndex (defnListOf g)) nm
      ∧ id ∈ idxLookup (buildIndex (defnListOf g)) (lastDotSegment nm))
    ∧ ∀ (pre : List (String × List String)) (k v : String),
        v ∈ idxLookup pre k → v ∈ idxLookup ((defnListOf g).foldl indexStep pre) k := by
  constructor
  · exact buildIndex_mem (defnListOf g) [] id nm hmem hdot
  · intro pre k v h
    exact idxLookup_mono_foldl (defnListOf g) pre h

/-- C4 witness: the node named database.db_host is reachable in the index both
under the full dotted name and under the alias db_host. -/
theorem c4_alias_index_witness :
    ("cfg.yaml::database.db_host", "database.db_host") ∈ defnListOf gC4w
    ∧ ("database.db_host" : String).data.contains '.' = true
    ∧ (("cfg.yaml::database.db_host" ∈
          idxLookup (buildIndex (defnListOf gC4w)) "database.db_host"
        ∧ "cfg.yaml::database.db_host" ∈
          idxLookup (buildIndex (defnListOf gC4w)) (lastDotSegment "database.db_host"))
      ∧ ∀ (pre : List (String × List String)) (k v : String),
          v ∈ idxLookup pre k → v ∈ idxLookup ((defnListOf gC4w).foldl indexStep pre) k) :=
  ⟨by decide, by decide,
    c4_alias_index gC4w "cfg.yaml::database.db_host" "database.db_host" (by decide) (by decide)⟩

/-! ## Claim C8 -/

theorem enclosingKeys_cons (selfId : Nat) (ty : String) (key : Option (Nat × String))
    (rest : List Ancestor) :
    enclosingKeys selfId ({ type := ty, key := key } :: rest) =
      (match key with
        | some kv =>
            if (ty == "block_mapping_pair" && kv.1 != selfId) = true then
              kv.2 :: enclosingKeys selfId rest
            else enclosingKeys selfId rest
        | none => enclosingKeys selfId rest) := by
  cases key with
  | none => rfl
  | some kv => rfl

theorem yamlWalk_eq (selfId : Nat) :
    ∀ (ancestors : List Ancestor) (path : List String),
      yamlWalk selfId path ancestors = (enclosingKeys selfId ancestors).reverse ++ path
  | [], path => by simp [yamlWalk, enclosingKeys]
  | a :: rest, path => by
      rcases a with ⟨ty, key⟩
      simp only [yamlWalk]
      rw [enclosingKeys_cons]
      cases key with
      | none =>
          show yamlWalk selfId (if (ty == "block_mapping_pair") = true then path else path)
              rest = _
          rw [ite_self, yamlWalk_eq selfId rest path]
      | some kv =>
          obtain ⟨kid, ktext⟩ := kv
          show yamlWalk selfId
              (if (ty == "block_mapping_pair") = true then
                (if (kid != selfId) = true then ktext :: path else path) else path) rest =
            (if (ty == "block_mapping_pair" && kid != selfId) = true then
              ktext :: enclosingKeys selfId rest
              else enclosingKeys selfId rest).reverse ++ path
          by_cases ht : (ty == "block_mapping_pair") = true
          · by_cases hk : (kid != selfId) = true
            · rw [if_pos ht, if_pos hk, yamlWalk_eq selfId rest (ktext :: path),
                if_pos (by simp [ht, hk])]
              rw [List.reverse_cons, List.append_assoc]
              rfl
            · rw [if_pos ht, if_neg hk, yamlWalk_eq selfId rest path,
                if_neg (by simp only [Bool.and_eq_true]; exact fun hc => hk hc.2)]
          · rw [if_neg ht, yamlWalk_eq selfId rest path,
              if_neg (by simp only [Bool.and_eq_true]; exact fun hc => ht hc.1)]

/-- C8: the qualified YAML name equals the key texts of the properly enclosing
mapping-pair ancestors, outermost first, joined with dots and ending with the
captured node's own text; for the flat registered formats the raw name is
simply the captured text, and for the YAML extensions it is the walk. -/
theorem c8_yaml_qualified_path (selfId : Nat) (selfText : String)
    (ancestors : List Ancestor) (c : Capture) :
    get_yaml_full_path selfId selfText ancestors =
      String.intercalate "." ((enclosingKeys selfId ancestors).reverse ++ [selfText])
    ∧ rawName ".yaml" c = get_yaml_full_path c.selfId c.text c.ancestors
    ∧ rawName ".yml" c = get_yaml_full_path c.selfId c.text c.ancestors
    ∧ rawName ".py" c = c.text ∧ rawName ".tf" c = c.text ∧ rawName "" c = c.text := by
  refine ⟨?_, rfl, rfl, rfl, rfl, rfl⟩
  unfold get_yaml_full_path
  rw [yamlWalk_eq]

/-! ## Claim C9 -/

theorem removeQuotes_data (s : String) :
    (removeQuotes s).data = s.data.filter (fun c => !(isQuoteChar c)) := by
  unfold removeQuotes removeChar
  show (s.data.filter (fun c => c != '"')).filter (fun c => c != squoteChar) = _
  rw [List.filter_filter]
  congr 1
  funext c
  unfold isQuoteChar
  rw [Bool.not_or, Bool.and_comm]
  rfl

theorem mem_trimSpacesList {x : Char} {l : List Char} (h : x ∈ trimSpacesList l) : x ∈ l := by
  unfold trimSpacesList at h
  rw [List.mem_reverse] at h
  have h2 := (List.dropWhile_sublist isSpaceChar).mem h
  rw [List.mem_reverse] at h2
  exact (List.dropWhile_sublist isSpaceChar).mem h2

theorem head_dropWhile_not (p : Char → Bool) :
    ∀ (l : List Char) (x : Char), (l.dropWhile p).head? = some x → p x = false
  | [], x, h => by cases h
  | c :: rest, x, h => by
      rw [List.dropWhile_cons] at h
      by_cases hc : p c = true
      · rw [if_pos hc] at h
        exact head_dropWhile_not p rest x h
      · rw [if_neg hc] at h
        have h2 : c = x := by
          have : some c = some x := h
          injection this
        subst h2
        exact Bool.of_not_eq_true hc

theorem trimSpacesList_sandwich (A core B2 : List Char)
    (hA : ∀ x ∈ A, isSpaceChar x = true) (hB : ∀ x ∈ B2, isSpaceChar x = true)
    (h1 : ∀ x, core.head? = some x → isSpaceChar x = false)
    (h2 : ∀ x, core.getLast? = some x → isSpaceChar x = false) :
    trimSpacesList (A ++ (core ++ B2)) = core := by
  unfold trimSpacesList
  have hAe : A.dropWhile isSpaceChar = [] := List.dropWhile_eq_nil_iff.mpr hA
  rw [List.dropWhile_append, hAe]
  rw [if_pos List.isEmpty_nil]
  cases core with
  | nil =>
      rw [List.nil_append, List.dropWhile_eq_nil_iff.mpr hB]
      rfl
  | cons c0 core' =>
      have hc0 : isSpaceChar c0 = false := h1 c0 rfl
      rw [List.cons_append, List.dropWhile_cons, if_neg (by simp [hc0])]
      rw [show (c0 :: (core' ++ B2)).reverse = B2.reverse ++ (c0 :: core').reverse from by
        rw [← List.cons_append, List.reverse_append]]
      have hBr : ∀ x ∈ B2.reverse, isSpaceChar x = true :=
        fun x hx => hB x (List.mem_reverse.mp hx)
      rw [List.dropWhile_append, List.dropWhile_eq_nil_iff.mpr hBr]
      rw [if_pos List.isEmpty_nil]
      cases hrev : (c0 :: core').reverse with
      | nil => exact absurd hrev (by simp)
      | cons y ys =>
          have hy : isSpaceChar y = false := by
            apply h2
            rw [← List.head?_reverse, hrev]
            rfl
          rw [List.dropWhile_cons, if_neg (by simp [hy]), ← hrev, List.reverse_reverse]

theorem cleanRaw_data (raw : String) :
    (cleanRaw raw).data = trimSpacesList (raw.data.filter (fun c => !(isQuoteChar c))) := by
  unfold cleanRaw pyStrip
  rw [removeQuotes_data]

/-- C9, counterexample: an interior quote character is removed by the cleaning
step, while the claim says only surrounding quotes are stripped and interior
quotes are preserved. -/
theorem c9_cleaning_counterexample :
    cleanRaw "a\"b" = "ab"
    ∧ stripSurrounding "a\"b" = "a\"b"
    ∧ cleanRaw "a\"b" ≠ stripSurrounding "a\"b" := by
  refine ⟨by decide, by decide, by decide⟩

theorem cleanRaw_quote_free (raw : String) :
    ∀ x ∈ (cleanRaw raw).data, isQuoteChar x = false := by
  intro x hx
  rw [cleanRaw_data] at hx
  have hmem : x ∈ raw.data.filter (fun c => !(isQuoteChar c)) := mem_trimSpacesList hx
  have h2 := List.of_mem_filter (p := fun c => !(isQuoteChar c)) hmem
  cases hq : isQuoteChar x
  · rfl
  · simp only at h2
    rw [hq] at h2
    simp at h2

/-- C9, amended: the cleaned name equals the raw text with every quote
character removed, wherever it occurs, followed by stripping surrounding
whitespace; in particular the cleaned name never contains a quote character,
and whenever the raw text has no quote characters outside its surrounding
quote-or-whitespace runs, this coincides with stripping only the surrounding
quote characters and whitespace, which is the case the original sentence
described. -/
theorem c9_cleaning_amended (raw : String) :
    (cleanRaw raw).data.all (fun ch => !(isQuoteChar ch)) = true
    ∧ ((∀ x ∈ (stripSurrounding raw).data, isQuoteChar x = false) →
        cleanRaw raw = stripSurrounding raw) := by
  constructor
  · rw [List.all_eq_true]
    intro x hx
    simp [cleanRaw_quote_free raw x hx]
  · intro h
    set S := fun c => isQuoteChar c || isSpaceChar c with hS
    set l := raw.data with hl
    set M := l.dropWhile S with hM
    set coreRev := M.reverse.dropWhile S with hcoreRev
    set core := coreRev.reverse with hcore
    have hstrip : (stripSurrounding raw).data = core := rfl
    have hsplit1 : l.takeWhile S ++ M = l := List.takeWhile_append_dropWhile S l
    have hsplit2 : M.reverse.takeWhile S ++ coreRev = M.reverse :=
      List.takeWhile_append_dropWhile S M.reverse
    have hMdecomp : M = core ++ (M.reverse.takeWhile S).reverse := by
      have := congrArg List.reverse hsplit2
      rw [List.reverse_append, List.reverse_reverse] at this
      rw [hcore]
      exact this.symm
    have hldecomp : l = l.takeWhile S ++ (core ++ (M.reverse.takeWhile S).reverse) := by
      rw [← hMdecomp]
      exact hsplit1.symm
    have hcoreq : ∀ x ∈ core, isQuoteChar x = false := by
      intro x hx
      apply h
      rw [hstrip]
      exact hx
    apply String.ext
    rw [cleanRaw_data, hstrip]
    rw [show raw.data = l from rfl, hldecomp, List.filter_append, List.filter_append]
    have hfcore : core.filter (fun c => !(isQuoteChar c)) = core := by
      rw [List.filter_eq_self]
      intro x hx
      simp [hcoreq x hx]
    rw [hfcore]
    apply trimSpacesList_sandwich
    · intro x hx
      have hx2 := List.of_mem_filter hx
      have hx3 := List.mem_takeWhile_imp (List.mem_of_mem_filter hx)
      rw [hS] at hx3
      simp only [Bool.or_eq_true] at hx3
      rcases hx3 with hq | hsp
      · rw [hq] at hx2; cases hx2
      · exact hsp
    · intro x hx
      have hx2 := List.of_mem_filter hx
      have hx4 : x ∈ M.reverse.takeWhile S := by
        have := List.mem_of_mem_filter hx
        rw [List.mem_reverse] at this
        exact this
      have hx3 := List.mem_takeWhile_imp hx4
      rw [hS] at hx3
      simp only [Bool.or_eq_true] at hx3
      rcases hx3 with hq | hsp
      · rw [hq] at hx2; cases hx2
      · exact hsp
    · intro x hx
      have hx2 : M.head? = some x := by
        rw [hMdecomp]
        cases hc : core with
        | nil => rw [hc] at hx; cases hx
        | cons c0 cs =>
            rw [hc] at hx
            have : c0 = x := by injection hx
            subst this
            rfl
      have hx3 := head_dropWhile_not S l x hx2
      rw [hS] at hx3
      simp only [Bool.or_eq_false_iff] at hx3
      exact hx3.2
    · intro x hx
      have hx2 : coreRev.head? = some x := by
        rw [← List.head?_reverse, hcore, List.reverse_reverse] at hx
        exact hx
      have hx3 := head_dropWhile_not S M.reverse x hx2
      rw [hS] at hx3
      simp only [Bool.or_eq_false_iff] at hx3
      exact hx3.2

/-- C9 witness: a quoted, space-padded raw text cleans to the bare name, and
on such an input the code cleaning and the claimed surround-stripping agree. -/
theorem c9_cleaning_amended_witness :
    (cleanRaw " \"db_host\" ").data.all (fun ch => !(isQuoteChar ch)) = true
    ∧ (∀ x ∈ (stripSurrounding " \"db_host\" ").data, isQuoteChar x = false)
    ∧ cleanRaw " \"db_host\" " = stripSurrounding " \"db_host\" " :=
  ⟨(c9_cleaning_amended " \"db_host\" ").1, by decide,
    (c9_cleaning_amended " \"db_host\" ").2 (by decide)⟩

/-! ## Claim C6 -/

theorem defnSel_setFile (k tag : String) (a : NodeAttrs) :
    defnSel (k, setFileAttrs tag a) = none := by
  rcases a with ⟨t, lg, nm⟩
  cases nm <;> rfl

theorem mem_defnFilter_setFile (i tag : String) :
    ∀ (l : List (String × NodeAttrs)) (x : String × String),
      x ∈ (updateAssoc (setFileAttrs tag) i l).filterMap defnSel →
        x ∈ l.filterMap defnSel
  | [], x, h => by
      simp only [updateAssoc, List.filterMap_cons, defnSel_setFile] at h
      cases h
  | (k, a) :: rest, x, h => by
      by_cases hk : (k == i) = true
      · rw [updateAssoc, if_pos hk] at h
        rw [List.filterMap_cons, defnSel_setFile] at h
        rw [List.filterMap_cons]
        cases hsel : defnSel (k, a) with
        | none => exact h
        | some b => exact List.mem_cons_of_mem _ h
      · rw [updateAssoc, if_neg hk] at h
        rw [List.filterMap_cons] at h ⊢
        cases hsel : defnSel (k, a) with
        | none =>
            rw [hsel] at h
            exact mem_defnFilter_setFile i tag rest x h
        | some b =>
            rw [hsel] at h
            rcases List.mem_cons.mp h with h1 | h1
            · rw [h1]; exact List.mem_cons_self _ _
            · exact List.mem_cons_of_mem _ (mem_defnFilter_setFile i tag rest x h1)

theorem addEdge_src_ne_mem_iff (g : Graph) (u v rel a b r : String) (hne : a ≠ u) :
    ((a, b, r) ∈ (g.addEdge u v rel).edges ↔ (a, b, r) ∈ g.edges) := by
  rw [addEdge_edges]
  constructor
  · intro h
    rcases mem_updateEdges_elim h with h1 | h1
    · exact h1
    · exfalso
      apply hne
      have := congrArg Prod.fst h1
      exact this
  · intro h
    exact mem_updateEdges_keep h (Or.inr (fun hc => hne hc.1))

theorem scanTargets_src_ne_iff {f a : String} (hne : a ≠ f) :
    ∀ (ts : List String) (g : Graph) (b r : String),
      ((a, b, r) ∈ (scanTargets f g ts).edges ↔ (a, b, r) ∈ g.edges)
  | [], _, _, _ => Iff.rfl
  | t :: ts, g, b, r => by
      have h2 : scanTargets f g (t :: ts) =
          scanTargets f (if strStartsWith t f then g else g.addEdge f t "references") ts := rfl
      rw [h2]
      by_cases hs : strStartsWith t f
      · rw [if_pos hs]
        exact scanTargets_src_ne_iff hne ts g b r
      · rw [if_neg hs]
        rw [scanTargets_src_ne_iff hne ts _ b r]
        exact addEdge_src_ne_mem_iff g f t "references" a b r hne

theorem scanIdx_src_ne_iff {f content a : String} (hne : a ≠ f) :
    ∀ (idx : List (String × List String)) (g : Graph) (b r : String),
      ((a, b, r) ∈ (idx.foldl (scanEntry f content) g).edges ↔ (a, b, r) ∈ g.edges)
  | [], _, _, _ => Iff.rfl
  | (nm, ts) :: idx, g, b, r => by
      rw [List.foldl_cons, scanIdx_src_ne_iff hne idx _ b r]
      unfold scanEntry
      by_cases hc : (decide (3 < nm.length) && strContains content nm) = true
      · rw [if_pos hc]
        exact scanTargets_src_ne_iff hne ts g b r
      · rw [if_neg hc]

theorem scanFiles_src_iff {contents : List (String × String)}
    {idx : List (String × List String)} {f : String} :
    ∀ (fls : List String) (g : Graph),
      (∀ u ∈ fls, u = f → readContent contents u = none) →
      ∀ (t r : String),
        ((f, t, r) ∈ (fls.foldl (scanFile idx contents) g).edges ↔ (f, t, r) ∈ g.edges)
  | [], _, _, _, _ => Iff.rfl
  | u :: fls, g, hmiss, t, r => by
      rw [List.foldl_cons]
      rw [scanFiles_src_iff fls _ (fun x hx => hmiss x (List.mem_cons_of_mem _ hx)) t r]
      by_cases hu : u = f
      · subst hu
        unfold scanFile
        rw [hmiss u (List.mem_cons_self _ _) rfl]
      · unfold scanFile
        cases hr : readContent contents u with
        | none => exact Iff.rfl
        | some content => exact scanIdx_src_ne_iff (fun h => hu h.symm) idx g t r

theorem scanTargets_attrs_keep {f : String} :
    ∀ (ts : List String) (g : Graph) (id : String) (a : NodeAttrs),
      g.attrsOf id = some a → (scanTargets f g ts).attrsOf id = some a
  | [], _, _, _, h => h
  | t :: ts, g, id, a, h => by
      have h2 : scanTargets f g (t :: ts) =
          scanTargets f (if strStartsWith t f then g else g.addEdge f t "references") ts := rfl
      rw [h2]
      by_cases hs : strStartsWith t f
      · rw [if_pos hs]
        exact scanTargets_attrs_keep ts g id a h
      · rw [if_neg hs]
        exact scanTargets_attrs_keep ts _ id a (attrsOf_addEdge g f t "references" id h)

theorem scanIdx_attrs_keep {f content : String} :
    ∀ (idx : List (String × List String)) (g : Graph) (id : String) (a : NodeAttrs),
      g.attrsOf id = some a → ((idx.foldl (scanEntry f content) g).attrsOf id = some a)
  | [], _, _, _, h => h
  | (nm, ts) :: idx, g, id, a, h => by
      rw [List.foldl_cons]
      refine scanIdx_attrs_keep idx _ id a ?_
      unfold scanEntry
      by_cases hc : (decide (3 < nm.length) && strContains content nm) = true
      · rw [if_pos hc]
        exact scanTargets_attrs_keep ts g id a h
      · rw [if_neg hc]
        exact h

theorem scanFiles_attrs_keep {contents : List (String × String)}
    {idx : List (String × List String)} :
    ∀ (fls : List String) (g : Graph) (id : String) (a : NodeAttrs),
      g.attrsOf id = some a → ((fls.foldl (scanFile idx contents) g).attrsOf id = some a)
  | [], _, _, _, h => h
  | u :: fls, g, id, a, h => by
      rw [List.foldl_cons]
      refine scanFiles_attrs_keep fls _ id a ?_
      unfold scanFile
      cases hr : readContent contents u with
      | none => exact h
      | some content => exact scanIdx_attrs_keep idx g id a h

/-- C6: per-file failures are isolated and non-fatal.  A registered file whose
read or parse raises keeps exactly its bare file node and contributes no
definition entries, and ingestion continues with the next file; a file the
resolver cannot re-read is skipped during resolution, and the resolver leaves
the existing attribute records of all nodes and all the edges sourced at that
file untouched. -/
theorem c6_failure_isolated (g : Graph) (contents : List (String × String))
    (relPath f : String) (rest : List (String × Option (List Capture)))
    (hreg : (registryLookup (basenameOf relPath)).isSome = true)
    (hmiss : readContent contents f = none) :
    parse_file g relPath none =
        g.addNodeWith relPath (setFileAttrs (langTagOf (splitext (basenameOf relPath)).2))
    ∧ (∀ x, x ∈ defnListOf (parse_file g relPath none) → x ∈ defnListOf g)
    ∧ ingest g ((relPath, none) :: rest) = ingest (parse_file g relPath none) rest
    ∧ (∀ (idx : List (String × List String)) (g2 : Graph), scanFile idx contents g2 f = g2)
    ∧ (∀ t r, ((f, t, r) ∈ (build_cross_reference g contents).edges ↔ (f, t, r) ∈ g.edges))
    ∧ (∀ id a, g.attrsOf id = some a →
        (build_cross_reference g contents).attrsOf id = some a) := by
  have hpf : parse_file g relPath none =
      g.addNodeWith relPath (setFileAttrs (langTagOf (splitext (basenameOf relPath)).2)) := by
    cases hr : registryLookup (basenameOf relPath) with
    | none => rw [hr] at hreg; cases hreg
    | some cfg => simp only [parse_file, hr]
  refine ⟨hpf, ?_, rfl, ?_, ?_, ?_⟩
  · intro x hx
    rw [hpf] at hx
    exact mem_defnFilter_setFile relPath _ g.nodes x hx
  · intro idx g2
    unfold scanFile
    rw [hmiss]
  · intro t r
    unfold build_cross_reference
    exact scanFiles_src_iff (fileNodesOf g) g (fun u _ hu => hu ▸ hmiss) t r
  · intro id a h
    unfold build_cross_reference
    exact scanFiles_attrs_keep (fileNodesOf g) g id a h

/-- C6 witness: a failing python file keeps only its bare file node, and the
resolver skips the file missing from the snapshot, leaving its edges and all
node attributes as they were. -/
theorem c6_failure_isolated_witness :
    (registryLookup (basenameOf "broken.py")).isSome = true
    ∧ readContent cC6w "broken.py" = none
    ∧ (parse_file gC6w "broken.py" none =
        gC6w.addNodeWith "broken.py"
          (setFileAttrs (langTagOf (splitext (basenameOf "broken.py")).2))
      ∧ (∀ x, x ∈ defnListOf (parse_file gC6w "broken.py" none) → x ∈ defnListOf gC6w)
      ∧ ingest gC6w (("broken.py", none) :: []) = ingest (parse_file gC6w "broken.py" none) []
      ∧ (∀ (idx : List (String × List String)) (g2 : Graph),
          scanFile idx cC6w g2 "broken.py" = g2)
      ∧ (∀ t r, (("broken.py", t, r) ∈ (build_cross_reference gC6w cC6w).edges ↔
          ("broken.py", t, r) ∈ gC6w.edges))
      ∧ (∀ id a, gC6w.attrsOf id = some a →
          (build_cross_reference gC6w cC6w).attrsOf id = some a)) :=
  ⟨by decide, by decide,
    c6_failure_isolated gC6w cC6w "broken.py" "broken.py" [] (by decide) (by decide)⟩

/-! ## Claim C7: step lemmas for the extraction pass -/

theorem mem_updateAssoc_elim {f : NodeAttrs → NodeAttrs} {i : String} :
    ∀ {l : List (String × NodeAttrs)} {d : String} {a : NodeAttrs},
      (d, a) ∈ updateAssoc f i l → (d, a) ∈ l ∨ (d = i ∧ ∃ b, a = f b)
  | [], d, a, h => by
      simp only [updateAssoc] at h
      rcases List.mem_singleton.mp h with h1
      have h2 : d = i := congrArg Prod.fst h1
      have h3 : a = f {} := congrArg Prod.snd h1
      exact Or.inr ⟨h2, {}, h3⟩
  | (k, b0) :: rest, d, a, h => by
      by_cases hk : (k == i) = true
      · rw [updateAssoc, if_pos hk] at h
        rcases List.mem_cons.mp h with h1 | h1
        · have h2 : d = k := congrArg Prod.fst h1
          have h3 : a = f b0 := congrArg Prod.snd h1
          exact Or.inr ⟨h2.trans (by simpa using hk), b0, h3⟩
        · exact Or.inl (List.mem_cons_of_mem _ h1)
      · rw [updateAssoc, if_neg hk] at h
        rcases List.mem_cons.mp h with h1 | h1
        · exact Or.inl (h1 ▸ List.mem_cons_self _ _)
        · rcases mem_updateAssoc_elim h1 with h2 | h2
          · exact Or.inl (List.mem_cons_of_mem _ h2)
          · exact Or.inr h2

theorem mem_keymap_updateEdges {u v rel : String} {es : List (String × String × String)}
    {x : String × String}
    (h : x ∈ (updateEdges u v rel es).map (fun e => (e.1, e.2.1))) :
    x ∈ es.map (fun e => (e.1, e.2.1)) ∨ x = (u, v) := by
  rcases List.mem_map.mp h with ⟨e, he, hx⟩
  rcases mem_updateEdges_elim he with h1 | h1
  · exact Or.inl (hx ▸ List.mem_map_of_mem _ h1)
  · subst h1
    exact Or.inr hx.symm

theorem updateEdges_keymap_nodup {u v rel : String} :
    ∀ {es : List (String × String × String)},
      (es.map (fun e => (e.1, e.2.1))).Nodup →
      ((updateEdges u v rel es).map (fun e => (e.1, e.2.1))).Nodup
  | [], _ => by simp [updateEdges]
  | (a, b, r) :: rest, h => by
      rw [List.map_cons, List.nodup_cons] at h
      by_cases hab : (a == u && b == v) = true
      · rw [updateEdges, if_pos hab, List.map_cons, List.nodup_cons]
        exact h
      · rw [updateEdges, if_neg hab, List.map_cons, List.nodup_cons]
        refine ⟨?_, updateEdges_keymap_nodup h.2⟩
        intro hmem
        rcases mem_keymap_updateEdges hmem with h1 | h1
        · exact h.1 h1
        · apply hab
          have h2 : a = u := congrArg Prod.fst h1
          have h3 : b = v := congrArg Prod.snd h1
          simp [h2, h3]

theorem capturedName_some {ext : String} {c : Capture}
    (hlab : c.label = "name")
    (hval : is_valid_identifier (cleanName ext c) = true) :
    capturedName ext c = some (cleanName ext c) := by
  unfold capturedName
  rw [if_pos (by simp [hlab]), if_pos hval]

theorem capturedName_none_of_invalid {ext : String} {c : Capture}
    (hval : is_valid_identifier (cleanName ext c) = false) :
    capturedName ext c = none := by
  unfold capturedName
  by_cases hlab : (c.label == "name") = true
  · rw [if_pos hlab, if_neg (by simp [hval])]
  · rw [if_neg hlab]

theorem capturedName_none_of_label {ext : String} {c : Capture}
    (hlab : (c.label == "name") = false) :
    capturedName ext c = none := by
  unfold capturedName
  rw [if_neg (by simp [hlab])]

theorem procCap_edges_elim {rp ext : String} :
    ∀ (caps : List Capture) (g : Graph) (e : String × String × String),
      e ∈ (caps.foldl (processCapture rp ext) g).edges →
      e ∈ g.edges ∨ ∃ n, n ∈ caps.filterMap (capturedName ext) ∧
        e = (rp, mkNodeId rp n, "contains")
  | [], _, _, h => Or.inl h
  | c :: caps, g, e, h => by
      rw [List.foldl_cons] at h
      rcases procCap_edges_elim caps _ e h with h1 | ⟨n, hn, h1⟩
      · unfold processCapture at h1
        by_cases hlab : (c.label == "name") = true
        · rw [if_pos hlab] at h1
          by_cases hval : is_valid_identifier (cleanName ext c) = true
          · rw [if_pos hval] at h1
            rw [addEdge_edges] at h1
            rcases mem_updateEdges_elim h1 with h2 | h2
            · exact Or.inl h2
            · refine Or.inr ⟨cleanName ext c, ?_, h2⟩
              rw [List.filterMap_cons,
                capturedName_some (by simpa using hlab) hval]
              exact List.mem_cons_self _ _
          · rw [if_neg hval] at h1
            exact Or.inl h1
        · rw [if_neg hlab] at h1
          exact Or.inl h1
      · refine Or.inr ⟨n, ?_, h1⟩
        rw [List.filterMap_cons]
        cases capturedName ext c with
        | none => exact hn
        | some m => exact List.mem_cons_of_mem _ hn

theorem procCap_contains_keep {rp ext : String} :
    ∀ (caps : List Capture) (g : Graph) (e : String × String × String),
      e ∈ g.edges → e.2.2 = "contains" →
      e ∈ (caps.foldl (processCapture rp ext) g).edges
  | [], _, _, h, _ => h
  | c :: caps, g, e, h, hrel => by
      rw [List.foldl_cons]
      refine procCap_contains_keep caps _ e ?_ hrel
      unfold processCapture
      by_cases hlab : (c.label == "name") = true
      · rw [if_pos hlab]
        by_cases hval : is_valid_identifier (cleanName ext c) = true
        · rw [if_pos hval]
          rw [addEdge_edges]
          exact mem_updateEdges_keep h (Or.inl hrel)
        · rw [if_neg hval]
          exact h
      · rw [if_neg hlab]
        exact h

theorem procCap_keymap_nodup {rp ext : String} :
    ∀ (caps : List Capture) (g : Graph),
      (g.edges.map (fun e => (e.1, e.2.1))).Nodup →
      (((caps.foldl (processCapture rp ext) g).edges.map (fun e => (e.1, e.2.1)))).Nodup
  | [], _, h => h
  | c :: caps, g, h => by
      rw [List.foldl_cons]
      refine procCap_keymap_nodup caps _ ?_
      unfold processCapture
      by_cases hlab : (c.label == "name") = true
      · rw [if_pos hlab]
        by_cases hval : is_valid_identifier (cleanName ext c) = true
        · rw [if_pos hval]
          rw [addEdge_edges]
          exact updateEdges_keymap_nodup h
        · rw [if_neg hval]
          exact h
      · rw [if_neg hlab]
        exact h

theorem procCap_attrs_away {rp ext : String} {x : String} :
    ∀ (caps : List Capture) (g : Graph) (a : NodeAttrs),
      (∀ n, n ∈ caps.filterMap (capturedName ext) → x ≠ mkNodeId rp n) →
      g.attrsOf x = some a → ((caps.foldl (processCapture rp ext) g).attrsOf x = some a)
  | [], _, _, _, h => h
  | c :: caps, g, a, hx, h => by
      rw [List.foldl_cons]
      have hxrest : ∀ n, n ∈ caps.filterMap (capturedName ext) → x ≠ mkNodeId rp n := by
        intro n hn
        refine hx n ?_
        rw [List.filterMap_cons]
        cases capturedName ext c with
        | none => exact hn
        | some m => exact List.mem_cons_of_mem _ hn
      refine procCap_attrs_away caps _ a hxrest ?_
      unfold processCapture
      by_cases hlab : (c.label == "name") = true
      · rw [if_pos hlab]
        by_cases hval : is_valid_identifier (cleanName ext c) = true
        · rw [if_pos hval]
          refine attrsOf_addEdge _ rp _ "contains" x ?_
          have hxc : x ≠ mkNodeId rp (cleanName ext c) := by
            refine hx (cleanName ext c) ?_
            rw [List.filterMap_cons, capturedName_some (by simpa using hlab) hval]
            exact List.mem_cons_self _ _
          rw [attrsOf_addNodeWith_ne _ _ _ _ hxc]
          exact h
        · rw [if_neg hval]
          exact h
      · rw [if_neg hlab]
        exact h

theorem mem_updateAssoc_id_elim {i : String} :
    ∀ {l : List (String × NodeAttrs)} {d : String} {a : NodeAttrs},
      (d, a) ∈ updateAssoc (fun x => x) i l → (d, a) ∈ l ∨ a = {}
  | [], d, a, h => by
      simp only [updateAssoc] at h
      rcases List.mem_singleton.mp h with h1
      exact Or.inr (congrArg Prod.snd h1)
  | (k, b0) :: rest, d, a, h => by
      by_cases hk : (k == i) = true
      · rw [updateAssoc, if_pos hk] at h
        exact Or.inl h
      · rw [updateAssoc, if_neg hk] at h
        rcases List.mem_cons.mp h with h1 | h1
        · exact Or.inl (h1 ▸ List.mem_cons_self _ _)
        · rcases mem_updateAssoc_id_elim h1 with h2 | h2
          · exact Or.inl (List.mem_cons_of_mem _ h2)
          · exact Or.inr h2

theorem addEdge_nodes_elim {g : Graph} {u v rel : String} {d : String} {a : NodeAttrs}
    (h : (d, a) ∈ (g.addEdge u v rel).nodes) : (d, a) ∈ g.nodes ∨ a = {} := by
  have h2 : (d, a) ∈ updateAssoc (fun x => x) v
      (updateAssoc (fun x => x) u g.nodes) := h
  rcases mem_updateAssoc_id_elim h2 with h3 | h3
  · exact mem_updateAssoc_id_elim h3
  · exact Or.inr h3

theorem procCap_nodes_elim {rp ext : String} :
    ∀ (caps : List Capture) (g : Graph) (d : String) (a : NodeAttrs),
      (d, a) ∈ (caps.foldl (processCapture rp ext) g).nodes →
      (d, a) ∈ g.nodes ∨ a = {} ∨
        ∃ n, n ∈ caps.filterMap (capturedName ext) ∧ d = mkNodeId rp n ∧
          ∃ b, a = setDefAttrs n b
  | [], _, _, _, h => Or.inl h
  | c :: caps, g, d, a, h => by
      rw [List.foldl_cons] at h
      rcases procCap_nodes_elim caps _ d a h with h1 | h1 | ⟨n, hn, h1⟩
      · unfold processCapture at h1
        by_cases hlab : (c.label == "name") = true
        · rw [if_pos hlab] at h1
          by_cases hval : is_valid_identifier (cleanName ext c) = true
          · rw [if_pos hval] at h1
            rcases addEdge_nodes_elim h1 with h2 | h2
            · have h3 : (d, a) ∈ updateAssoc (setDefAttrs (cleanName ext c))
                  (mkNodeId rp (cleanName ext c)) g.nodes := h2
              rcases mem_updateAssoc_elim h3 with h4 | ⟨hd, b, hb⟩
              · exact Or.inl h4
              · refine Or.inr (Or.inr ⟨cleanName ext c, ?_, hd, b, hb⟩)
                rw [List.filterMap_cons,
                  capturedName_some (by simpa using hlab) hval]
                exact List.mem_cons_self _ _
            · exact Or.inr (Or.inl h2)
          · rw [if_neg hval] at h1
            exact Or.inl h1
        · rw [if_neg hlab] at h1
          exact Or.inl h1
      · exact Or.inr (Or.inl h1)
      · refine Or.inr (Or.inr ⟨n, ?_, h1⟩)
        rw [List.filterMap_cons]
        cases capturedName ext c with
        | none => exact hn
        | some m => exact List.mem_cons_of_mem _ hn

theorem capturedName_inv {ext : String} {c : Capture} {n : String}
    (h : capturedName ext c = some n) :
    (c.label == "name") = true ∧ is_valid_identifier (cleanName ext c) = true ∧
      n = cleanName ext c := by
  unfold capturedName at h
  by_cases hlab : (c.label == "name") = true
  · rw [if_pos hlab] at h
    by_cases hval : is_valid_identifier (cleanName ext c) = true
    · rw [if_pos hval] at h
      have h2 : cleanName ext c = n := by injection h
      exact ⟨hlab, hval, h2.symm⟩
    · rw [if_neg hval] at h
      cases h
  · rw [if_neg hlab] at h
    cases h

theorem procCap_def_edge {rp ext : String} :
    ∀ (caps : List Capture) (g : Graph) (n : String),
      n ∈ caps.filterMap (capturedName ext) →
      (rp, mkNodeId rp n, "contains") ∈ (caps.foldl (processCapture rp ext) g).edges
  | [], _, _, h => absurd h (by simp)
  | c :: caps, g, n, h => by
      rw [List.foldl_cons]
      rw [List.filterMap_cons] at h
      cases hc : capturedName ext c with
      | none =>
          rw [hc] at h
          exact procCap_def_edge caps _ n h
      | some m =>
          rw [hc] at h
          rcases List.mem_cons.mp h with h1 | h1
          · subst h1
            obtain ⟨hlab, hval, hn⟩ := capturedName_inv hc
            refine procCap_contains_keep caps _ _ ?_ rfl
            unfold processCapture
            rw [if_pos hlab, if_pos hval, addEdge_edges, ← hn]
            exact mem_updateEdges_self _ _ _ _
          · exact procCap_def_edge caps _ n h1

/-- Extension used by parse_file for a relative path. -/
theorem fileDefNames_some {rp : String} {caps : List Capture} {cfg : String}
    (hr : registryLookup (basenameOf rp) = some cfg) :
    fileDefNames rp (some caps) =
      caps.filterMap (capturedName (splitext (basenameOf rp)).2) := by
  unfold fileDefNames
  rw [hr]

theorem parse_file_edges_elim {g : Graph} {rp : String} {o : Option (List Capture)}
    {e : String × String × String} (h : e ∈ (parse_file g rp o).edges) :
    e ∈ g.edges ∨ ∃ n, n ∈ fileDefNames rp o ∧ e = (rp, mkNodeId rp n, "contains") := by
  cases hr : registryLookup (basenameOf rp) with
  | none =>
      simp only [parse_file, hr] at h
      exact Or.inl h
  | some cfg =>
      cases o with
      | none =>
          simp only [parse_file, hr] at h
          exact Or.inl h
      | some caps =>
          simp only [parse_file, hr] at h
          rcases procCap_edges_elim caps _ e h with h1 | ⟨n, hn, h1⟩
          · exact Or.inl h1
          · rw [← fileDefNames_some hr] at hn
            exact Or.inr ⟨n, hn, h1⟩

theorem parse_file_contains_keep {g : Graph} {rp : String} {o : Option (List Capture)}
    {e : String × String × String} (h : e ∈ g.edges) (hrel : e.2.2 = "contains") :
    e ∈ (parse_file g rp o).edges := by
  cases hr : registryLookup (basenameOf rp) with
  | none =>
      simp only [parse_file, hr]
      exact h
  | some cfg =>
      cases o with
      | none =>
          simp only [parse_file, hr]
          exact h
      | some caps =>
          simp only [parse_file, hr]
          exact procCap_contains_keep caps _ e h hrel

theorem parse_file_keymap_nodup {g : Graph} {rp : String} {o : Option (List Capture)}
    (h : (g.edges.map (fun e => (e.1, e.2.1))).Nodup) :
    ((parse_file g rp o).edges.map (fun e => (e.1, e.2.1))).Nodup := by
  cases hr : registryLookup (basenameOf rp) with
  | none =>
      simp only [parse_file, hr]
      exact h
  | some cfg =>
      cases o with
      | none =>
          simp only [parse_file, hr]
          exact h
      | some caps =>
          simp only [parse_file, hr]
          exact procCap_keymap_nodup caps _ h

theorem parse_file_def_edge {g : Graph} {rp : String} {o : Option (List Capture)}
    {n : String} (h : n ∈ fileDefNames rp o) :
    (rp, mkNodeId rp n, "contains") ∈ (parse_file g rp o).edges := by
  cases hr : registryLookup (basenameOf rp) with
  | none =>
      unfold fileDefNames at h
      rw [hr] at h
      cases h
  | some cfg =>
      cases o with
      | none =>
          unfold fileDefNames at h
          rw [hr] at h
          cases h
      | some caps =>
          rw [fileDefNames_some hr] at h
          simp only [parse_file, hr]
          exact procCap_def_edge caps _ n h

theorem parse_file_nodes_elim {g : Graph} {rp : String} {o : Option (List Capture)}
    {d : String} {a : NodeAttrs} (h : (d, a) ∈ (parse_file g rp o).nodes) :
    (d, a) ∈ g.nodes ∨ a = {} ∨
      (d = rp ∧ ∃ b, a = setFileAttrs (langTagOf (splitext (basenameOf rp)).2) b) ∨
      (∃ n, n ∈ fileDefNames rp o ∧ d = mkNodeId rp n ∧ ∃ b, a = setDefAttrs n b) := by
  cases hr : registryLookup (basenameOf rp) with
  | none =>
      simp only [parse_file, hr] at h
      exact Or.inl h
  | some cfg =>
      cases o with
      | none =>
          simp only [parse_file, hr] at h
          rcases mem_updateAssoc_elim h with h1 | h1
          · exact Or.inl h1
          · exact Or.inr (Or.inr (Or.inl h1))
      | some caps =>
          simp only [parse_file, hr] at h
          rcases procCap_nodes_elim caps _ d a h with h1 | h1 | ⟨n, hn, hd, b, hb⟩
          · rcases mem_updateAssoc_elim h1 with h2 | h2
            · exact Or.inl h2
            · exact Or.inr (Or.inr (Or.inl h2))
          · exact Or.inr (Or.inl h1)
          · rw [← fileDefNames_some hr] at hn
            exact Or.inr (Or.inr (Or.inr ⟨n, hn, hd, b, hb⟩))

theorem parse_file_attrs_other {g : Graph} {rp : String} {o : Option (List Capture)}
    {x : String} {a : NodeAttrs} (hxr : x ≠ rp)
    (hx : ∀ n, n ∈ fileDefNames rp o → x ≠ mkNodeId rp n)
    (h : g.attrsOf x = some a) : (parse_file g rp o).attrsOf x = some a := by
  cases hr : registryLookup (basenameOf rp) with
  | none =>
      simp only [parse_file, hr]
      exact h
  | some cfg =>
      cases o with
      | none =>
          simp only [parse_file, hr]
          rw [attrsOf_addNodeWith_ne _ _ _ _ hxr]
          exact h
      | some caps =>
          simp only [parse_file, hr]
          refine procCap_attrs_away caps _ a ?_ ?_
          · intro n hn
            refine hx n ?_
            rw [fileDefNames_some hr]
            exact hn
          · rw [attrsOf_addNodeWith_ne _ _ _ _ hxr]
            exact h

theorem parse_file_attrs_self_file {g : Graph} {rp : String} {o : Option (List Capture)}
    {cfg : String} (hr : registryLookup (basenameOf rp) = some cfg) :
    ∃ a, (parse_file g rp o).attrsOf rp = some a ∧ a.type = some "file" := by
  have hbase : (g.addNodeWith rp
      (setFileAttrs (langTagOf (splitext (basenameOf rp)).2))).attrsOf rp =
      some (setFileAttrs (langTagOf (splitext (basenameOf rp)).2)
        ((g.attrsOf rp).getD {})) := attrsOf_addNodeWith_self g rp _
  cases o with
  | none =>
      simp only [parse_file, hr]
      exact ⟨_, hbase, rfl⟩
  | some caps =>
      simp only [parse_file, hr]
      refine ⟨_, procCap_attrs_away caps _ _ ?_ hbase, rfl⟩
      intro n _
      exact fun he => (mkNodeId_ne rp n) he.symm

theorem extractedDefs_cons (f : String × Option (List Capture))
    (rest : List (String × Option (List Capture))) :
    extractedDefs (f :: rest) =
      (fileDefNames f.1 f.2).map (fun n => (f.1, n)) ++ extractedDefs rest := rfl

theorem mem_extractedDefs_of :
    ∀ {files : List (String × Option (List Capture))} {rp : String}
      {o : Option (List Capture)} {n : String},
      (rp, o) ∈ files → n ∈ fileDefNames rp o → (rp, n) ∈ extractedDefs files
  | [], _, _, _, hf, _ => absurd hf (List.not_mem_nil _)
  | hd :: rest, rp, o, n, hf, hn => by
      rw [extractedDefs_cons]
      rcases List.mem_cons.mp hf with h1 | h1
      · subst h1
        exact List.mem_append_left _ (List.mem_map_of_mem _ hn)
      · exact List.mem_append_right _ (mem_extractedDefs_of h1 hn)

theorem fileDefNames_registry {rp : String} {o : Option (List Capture)} {n : String}
    (h : n ∈ fileDefNames rp o) : (registryLookup (basenameOf rp)).isSome = true := by
  unfold fileDefNames at h
  cases hr : registryLookup (basenameOf rp) with
  | none => rw [hr] at h; cases h
  | some cfg => rfl

theorem filePaths_cons (f : String × Option (List Capture))
    (rest : List (String × Option (List Capture))) :
    filePaths (f :: rest) =
      (if (registryLookup (basenameOf f.1)).isSome = true then f.1 :: filePaths rest
        else filePaths rest) := by
  unfold filePaths
  rw [List.filterMap_cons]
  by_cases h : (registryLookup (basenameOf f.1)).isSome = true
  · rw [if_pos h, if_pos h]
  · rw [if_neg h, if_neg (by simpa using h)]

theorem mem_filePaths_of_extracted :
    ∀ {files : List (String × Option (List Capture))} {p n : String},
      (p, n) ∈ extractedDefs files → p ∈ filePaths files
  | [], _, _, h => absurd h (List.not_mem_nil _)
  | hd :: rest, p, n, h => by
      rw [extractedDefs_cons] at h
      rw [filePaths_cons]
      rcases List.mem_append.mp h with h1 | h1
      · rcases List.mem_map.mp h1 with ⟨m, hm, he⟩
        have hp : p = hd.1 := (congrArg Prod.fst he).symm
        have hreg := fileDefNames_registry hm
        rw [if_pos hreg, hp]
        exact List.mem_cons_self _ _
      · have := mem_filePaths_of_extracted h1
        by_cases hreg : (registryLookup (basenameOf hd.1)).isSome = true
        · rw [if_pos hreg]
          exact List.mem_cons_of_mem _ this
        · rw [if_neg hreg]
          exact this

theorem ingest_cons (g : Graph) (f : String × Option (List Capture))
    (rest : List (String × Option (List Capture))) :
    ingest g (f :: rest) = ingest (parse_file g f.1 f.2) rest := rfl

theorem ingest_contains_keep :
    ∀ (todo : List (String × Option (List Capture))) (g : Graph)
      (e : String × String × String),
      e ∈ g.edges → e.2.2 = "contains" → e ∈ (ingest g todo).edges
  | [], _, _, h, _ => h
  | f :: rest, g, e, h, hrel => by
      rw [ingest_cons]
      exact ingest_contains_keep rest _ e (parse_file_contains_keep h hrel) hrel

theorem ingest_keymap_nodup :
    ∀ (todo : List (String × Option (List Capture))) (g : Graph),
      (g.edges.map (fun e => (e.1, e.2.1))).Nodup →
      ((ingest g todo).edges.map (fun e => (e.1, e.2.1))).Nodup
  | [], _, h => h
  | f :: rest, g, h => by
      rw [ingest_cons]
      exact ingest_keymap_nodup rest _ (parse_file_keymap_nodup h)

theorem ingest_edges_elim {files : List (String × Option (List Capture))} :
    ∀ (todo : List (String × Option (List Capture))) (g : Graph)
      (e : String × String × String),
      (∀ x ∈ todo, x ∈ files) → e ∈ (ingest g todo).edges →
      e ∈ g.edges ∨ ∃ p n, (p, n) ∈ extractedDefs files ∧ e = (p, mkNodeId p n, "contains")
  | [], _, _, _, h => Or.inl h
  | f :: rest, g, e, hsub, h => by
      rw [ingest_cons] at h
      rcases ingest_edges_elim rest _ e
        (fun x hx => hsub x (List.mem_cons_of_mem _ hx)) h with h1 | h1
      · rcases parse_file_edges_elim h1 with h2 | ⟨n, hn, h2⟩
        · exact Or.inl h2
        · refine Or.inr ⟨f.1, n, ?_, h2⟩
          exact mem_extractedDefs_of (by
            have := hsub f (List.mem_cons_self _ _)
            exact this) hn
      · exact Or.inr h1

theorem ingest_nodes_elim {files : List (String × Option (List Capture))} :
    ∀ (todo : List (String × Option (List Capture))) (g : Graph)
      (d : String) (a : NodeAttrs),
      (∀ x ∈ todo, x ∈ files) → (d, a) ∈ (ingest g todo).nodes →
      (d, a) ∈ g.nodes ∨ a = {} ∨ (∃ tag b, a = setFileAttrs tag b) ∨
        (∃ p n, (p, n) ∈ extractedDefs files ∧ d = mkNodeId p n ∧
          (∃ b, a = setDefAttrs n b) ∧ (p, d, "contains") ∈ (ingest g todo).edges)
  | [], _, _, _, _, h => Or.inl h
  | f :: rest, g, d, a, hsub, h => by
      rw [ingest_cons] at h
      rcases ingest_nodes_elim rest _ d a
        (fun x hx => hsub x (List.mem_cons_of_mem _ hx)) h with h1 | h1 | h1 | h1
      · rcases parse_file_nodes_elim h1 with h2 | h2 | ⟨hd, b, hb⟩ | ⟨n, hn, hd, b, hb⟩
        · exact Or.inl h2
        · exact Or.inr (Or.inl h2)
        · exact Or.inr (Or.inr (Or.inl ⟨_, b, hb⟩))
        · refine Or.inr (Or.inr (Or.inr ⟨f.1, n,
            mem_extractedDefs_of (hsub f (List.mem_cons_self _ _)) hn, hd, ⟨b, hb⟩, ?_⟩))
          rw [ingest_cons, hd]
          exact ingest_contains_keep rest _ _ (parse_file_def_edge hn) rfl
      · exact Or.inr (Or.inl h1)
      · exact Or.inr (Or.inr (Or.inl h1))
      · obtain ⟨p, n, hpn, hd, hb, hedge⟩ := h1
        refine Or.inr (Or.inr (Or.inr ⟨p, n, hpn, hd, hb, ?_⟩))
        rw [ingest_cons]
        exact hedge

theorem ingest_attrs_file {files : List (String × Option (List Capture))}
    (hfd : ∀ p n q, (p, n) ∈ extractedDefs files → q ∈ filePaths files →
      mkNodeId p n ≠ q) :
    ∀ (todo : List (String × Option (List Capture))) (g : Graph) (p : String),
      (∀ x ∈ todo, x ∈ files) → p ∈ filePaths files →
      ((∃ a, g.attrsOf p = some a ∧ a.type = some "file") ∨
        ∃ o, (p, o) ∈ todo ∧ (registryLookup (basenameOf p)).isSome = true) →
      ∃ a, (ingest g todo).attrsOf p = some a ∧ a.type = some "file"
  | [], g, p, _, _, hstart => by
      rcases hstart with h | ⟨o, ho, -⟩
      · exact h
      · exact absurd ho (List.not_mem_nil _)
  | f :: rest, g, p, hsub, hp, hstart => by
      rw [ingest_cons]
      have hsubr : ∀ x ∈ rest, x ∈ files := fun x hx => hsub x (List.mem_cons_of_mem _ hx)
      have hpf : ∀ n, n ∈ fileDefNames f.1 f.2 → p ≠ mkNodeId f.1 n := by
        intro n hn heq
        exact hfd f.1 n p
          (mem_extractedDefs_of (hsub f (List.mem_cons_self _ _)) hn) hp heq.symm
      rcases hstart with ⟨a, ha, hat⟩ | ⟨o, ho, hreg⟩
      · by_cases hpr : p = f.1
        · cases hr : registryLookup (basenameOf f.1) with
          | none =>
              refine ingest_attrs_file hfd rest _ p hsubr hp (Or.inl ⟨a, ?_, hat⟩)
              simp only [parse_file, hr]
              exact ha
          | some cfg =>
              refine ingest_attrs_file hfd rest _ p hsubr hp (Or.inl ?_)
              rw [hpr]
              exact parse_file_attrs_self_file hr
        · exact ingest_attrs_file hfd rest _ p hsubr hp
            (Or.inl ⟨a, parse_file_attrs_other hpr hpf ha, hat⟩)
      · rcases List.mem_cons.mp ho with h1 | h1
        · have hpr : p = f.1 := congrArg Prod.fst h1
          cases hr : registryLookup (basenameOf f.1) with
          | none =>
              rw [← hpr] at hr
              rw [hr] at hreg
              cases hreg
          | some cfg =>
              refine ingest_attrs_file hfd rest _ p hsubr hp (Or.inl ?_)
              rw [hpr]
              exact parse_file_attrs_self_file hr
        · exact ingest_attrs_file hfd rest _ p hsubr hp (Or.inr ⟨o, h1, hreg⟩)

theorem scanTargets_nodes_elim {f : String} :
    ∀ (ts : List String) (g : Graph) (d : String) (a : NodeAttrs),
      (d, a) ∈ (scanTargets f g ts).nodes → (d, a) ∈ g.nodes ∨ a = {}
  | [], _, _, _, h => Or.inl h
  | t :: ts, g, d, a, h => by
      have h2 : scanTargets f g (t :: ts) =
          scanTargets f (if strStartsWith t f then g else g.addEdge f t "references") ts := rfl
      rw [h2] at h
      by_cases hs : strStartsWith t f
      · rw [if_pos hs] at h
        exact scanTargets_nodes_elim ts g d a h
      · rw [if_neg hs] at h
        rcases scanTargets_nodes_elim ts _ d a h with h1 | h1
        · exact addEdge_nodes_elim h1
        · exact Or.inr h1

theorem scanIdx_nodes_elim {f content : String} :
    ∀ (idx : List (String × List String)) (g : Graph) (d : String) (a : NodeAttrs),
      (d, a) ∈ (idx.foldl (scanEntry f content) g).nodes → (d, a) ∈ g.nodes ∨ a = {}
  | [], _, _, _, h => Or.inl h
  | (nm, ts) :: idx, g, d, a, h => by
      rw [List.foldl_cons] at h
      rcases scanIdx_nodes_elim idx _ d a h with h1 | h1
      · unfold scanEntry at h1
        by_cases hc : (decide (3 < nm.length) && strContains content nm) = true
        · rw [if_pos hc] at h1
          exact scanTargets_nodes_elim ts g d a h1
        · rw [if_neg hc] at h1
          exact Or.inl h1
      · exact Or.inr h1

theorem scanFiles_nodes_elim {idx : List (String × List String)}
    {contents : List (String × String)} :
    ∀ (fls : List String) (g : Graph) (d : String) (a : NodeAttrs),
      (d, a) ∈ (fls.foldl (scanFile idx contents) g).nodes → (d, a) ∈ g.nodes ∨ a = {}
  | [], _, _, _, h => Or.inl h
  | u :: fls, g, d, a, h => by
      rw [List.foldl_cons] at h
      rcases scanFiles_nodes_elim fls _ d a h with h1 | h1
      · unfold scanFile at h1
        cases hr : readContent contents u with
        | none => rw [hr] at h1; exact Or.inl h1
        | some content =>
            rw [hr] at h1
            exact scanIdx_nodes_elim idx g d a h1
      · exact Or.inr h1

theorem scanTargets_sw_keep {f : String} :
    ∀ (ts : List String) (g : Graph) (e : String × String × String),
      e ∈ g.edges → strStartsWith e.2.1 e.1 = true → e ∈ (scanTargets f g ts).edges
  | [], _, _, h, _ => h
  | t :: ts, g, e, h, hsw => by
      have h2 : scanTargets f g (t :: ts) =
          scanTargets f (if strStartsWith t f then g else g.addEdge f t "references") ts := rfl
      rw [h2]
      by_cases hs : strStartsWith t f
      · rw [if_pos hs]
        exact scanTargets_sw_keep ts g e h hsw
      · rw [if_neg hs]
        refine scanTargets_sw_keep ts _ e ?_ hsw
        rw [addEdge_edges]
        refine mem_updateEdges_keep h (Or.inr ?_)
        rintro ⟨h3, h4⟩
        rw [h3, h4] at hsw
        rw [hsw] at hs
        exact hs rfl

theorem scanIdx_sw_keep {f content : String} :
    ∀ (idx : List (String × List String)) (g : Graph) (e : String × String × String),
      e ∈ g.edges → strStartsWith e.2.1 e.1 = true →
      e ∈ (idx.foldl (scanEntry f content) g).edges
  | [], _, _, h, _ => h
  | (nm, ts) :: idx, g, e, h, hsw => by
      rw [List.foldl_cons]
      refine scanIdx_sw_keep idx _ e ?_ hsw
      unfold scanEntry
      by_cases hc : (decide (3 < nm.length) && strContains content nm) = true
      · rw [if_pos hc]
        exact scanTargets_sw_keep ts g e h hsw
      · rw [if_neg hc]
        exact h

theorem scanFiles_sw_keep {idx : List (String × List String)}
    {contents : List (String × String)} :
    ∀ (fls : List String) (g : Graph) (e : String × String × String),
      e ∈ g.edges → strStartsWith e.2.1 e.1 = true →
      e ∈ (fls.foldl (scanFile idx contents) g).edges
  | [], _, _, h, _ => h
  | u :: fls, g, e, h, hsw => by
      rw [List.foldl_cons]
      refine scanFiles_sw_keep fls _ e ?_ hsw
      unfold scanFile
      cases hr : readContent contents u with
      | none => exact h
      | some content => exact scanIdx_sw_keep idx g e h hsw

theorem scanTargets_keymap_nodup {f : String} :
    ∀ (ts : List String) (g : Graph),
      (g.edges.map (fun e => (e.1, e.2.1))).Nodup →
      ((scanTargets f g ts).edges.map (fun e => (e.1, e.2.1))).Nodup
  | [], _, h => h
  | t :: ts, g, h => by
      have h2 : scanTargets f g (t :: ts) =
          scanTargets f (if strStartsWith t f then g else g.addEdge f t "references") ts := rfl
      rw [h2]
      by_cases hs : strStartsWith t f
      · rw [if_pos hs]
        exact scanTargets_keymap_nodup ts g h
      · rw [if_neg hs]
        refine scanTargets_keymap_nodup ts _ ?_
        rw [addEdge_edges]
        exact updateEdges_keymap_nodup h

theorem scanIdx_keymap_nodup {f content : String} :
    ∀ (idx : List (String × List String)) (g : Graph),
      (g.edges.map (fun e => (e.1, e.2.1))).Nodup →
      ((idx.foldl (scanEntry f content) g).edges.map (fun e => (e.1, e.2.1))).Nodup
  | [], _, h => h
  | (nm, ts) :: idx, g, h => by
      rw [List.foldl_cons]
      refine scanIdx_keymap_nodup idx _ ?_
      unfold scanEntry
      by_cases hc : (decide (3 < nm.length) && strContains content nm) = true
      · rw [if_pos hc]
        exact scanTargets_keymap_nodup ts g h
      · rw [if_neg hc]
        exact h

theorem scanFiles_keymap_nodup {idx : List (String × List String)}
    {contents : List (String × String)} :
    ∀ (fls : List String) (g : Graph),
      (g.edges.map (fun e => (e.1, e.2.1))).Nodup →
      ((fls.foldl (scanFile idx contents) g).edges.map (fun e => (e.1, e.2.1))).Nodup
  | [], _, h => h
  | u :: fls, g, h => by
      rw [List.foldl_cons]
      refine scanFiles_keymap_nodup fls _ ?_
      unfold scanFile
      cases hr : readContent contents u with
      | none => exact h
      | some content => exact scanIdx_keymap_nodup idx g h

theorem mem_extractedDefs_elim :
    ∀ {files : List (String × Option (List Capture))} {p n : String},
      (p, n) ∈ extractedDefs files →
      ∃ o, (p, o) ∈ files ∧ n ∈ fileDefNames p o
  | [], _, _, h => absurd h (List.not_mem_nil _)
  | hd :: rest, p, n, h => by
      rw [extractedDefs_cons] at h
      rcases List.mem_append.mp h with h1 | h1
      · rcases List.mem_map.mp h1 with ⟨m, hm, he⟩
        have hp : hd.1 = p := congrArg Prod.fst he
        have hn : m = n := congrArg Prod.snd he
        refine ⟨hd.2, ?_, ?_⟩
        · rw [← hp]
          exact List.mem_cons_self _ _
        · rw [← hp, ← hn]
          exact hm
      · obtain ⟨o, ho, hn⟩ := mem_extractedDefs_elim h1
        exact ⟨o, List.mem_cons_of_mem _ ho, hn⟩

theorem eq_singleton_of_unique {m : List (String × String × String)}
    {v : String × String × String}
    (hall : ∀ x ∈ m, x = v) (hmem : v ∈ m)
    (hnd : (m.map (fun e => (e.1, e.2.1))).Nodup) : m = [v] := by
  cases m with
  | nil => cases hmem
  | cons x rest =>
      cases rest with
      | nil => rw [hall x (List.mem_cons_self _ _)]
      | cons y rest2 =>
          exfalso
          have hx : x = v := hall x (List.mem_cons_self _ _)
          have hy : y = v := hall y (List.mem_cons_of_mem _ (List.mem_cons_self _ _))
          rw [List.map_cons, List.map_cons, List.nodup_cons] at hnd
          apply hnd.1
          rw [hx, hy]
          exact List.mem_cons_self _ _

theorem build_contains_unique (files : List (String × Option (List Capture)))
    (contents : List (String × String))
    (hinj : ∀ p1 n1 p2 n2, (p1, n1) ∈ extractedDefs files → (p2, n2) ∈ extractedDefs files →
      mkNodeId p1 n1 = mkNodeId p2 n2 → p1 = p2)
    (hfd : ∀ p n q, (p, n) ∈ extractedDefs files → q ∈ filePaths files →
      mkNodeId p n ≠ q) :
    ∀ d a, (d, a) ∈ (build files contents).nodes → a.type = some "definition" →
      ∃ p n, (p, n) ∈ extractedDefs files ∧ d = mkNodeId p n ∧
        incomingContains (build files contents) d = [(p, d, "contains")] ∧
        ∃ fa, (build files contents).attrsOf p = some fa ∧ fa.type = some "file" := by
  intro d a hmem htype
  have hIempty : ((Graph.empty.edges).map (fun e => (e.1, e.2.1))).Nodup := by
    exact List.nodup_nil
  have hInodup : (((ingest Graph.empty files).edges).map (fun e => (e.1, e.2.1))).Nodup :=
    ingest_keymap_nodup files Graph.empty hIempty
  have hBnodup : (((build files contents).edges).map (fun e => (e.1, e.2.1))).Nodup :=
    scanFiles_keymap_nodup _ _ hInodup
  have hmem2 : (d, a) ∈ (ingest Graph.empty files).nodes ∨ a = {} :=
    scanFiles_nodes_elim _ _ d a hmem
  rcases hmem2 with hmem2 | hempty
  · rcases ingest_nodes_elim files Graph.empty d a (fun x hx => hx) hmem2 with
      h1 | h1 | ⟨tag, b, hb⟩ | ⟨p, n, hpn, hd, ⟨b, hb⟩, hedge⟩
    · cases h1
    · rw [h1] at htype
      cases htype
    · rw [hb] at htype
      simp [setFileAttrs] at htype
    · refine ⟨p, n, hpn, hd, ?_, ?_⟩
      · have hsw : strStartsWith d p = true := by
          rw [hd]
          exact mkNodeId_startsWith p n
        have hkeep : (p, d, "contains") ∈ (build files contents).edges :=
          scanFiles_sw_keep _ _ (p, d, "contains") hedge hsw
        refine eq_singleton_of_unique ?_ ?_ ?_
        · intro x hx
          have hxe := List.mem_of_mem_filter hx
          have hxp := List.of_mem_filter hx
          simp only [Bool.and_eq_true, beq_iff_eq] at hxp
          rcases scanFiles_edges_elim _ _ x hxe with hx1 | ⟨u, -, content, -, nm, ts, -, -, -,
            t, -, hxref, -⟩
          · rcases ingest_edges_elim files Graph.empty x (fun y hy => hy) hx1 with hx2 | hx2
            · cases hx2
            · obtain ⟨p2, n2, hp2, hx3⟩ := hx2
              have hid : mkNodeId p2 n2 = d := by
                have := hxp.1
                rw [hx3] at this
                exact this
              have hpp : p2 = p := hinj p2 n2 p n hp2 hpn (by rw [hid, hd])
              rw [hx3, hid, hpp]
          · exfalso
            have := hxp.2
            rw [hxref] at this
            simp at this
        · rw [incomingContains, List.mem_filter]
          exact ⟨hkeep, by simp⟩
        · have hsub : (incomingContains (build files contents) d).Sublist
              ((build files contents).edges) := List.filter_sublist _
          exact List.Nodup.sublist (List.Sublist.map _ hsub) hBnodup
      · have hfp : p ∈ filePaths files := mem_filePaths_of_extracted hpn
        obtain ⟨o, ho, hno⟩ := mem_extractedDefs_elim hpn
        have hreg := fileDefNames_registry hno
        obtain ⟨fa, hfa, hft⟩ := ingest_attrs_file hfd files Graph.empty p
          (fun x hx => hx) hfp (Or.inr ⟨o, ho, hreg⟩)
        exact ⟨fa, scanFiles_attrs_keep _ _ p fa hfa, hft⟩
  · rw [hempty] at htype
    cases htype

/-! ## Claim C7: coalescing of duplicate cleaned names -/

theorem removeQuotes_id_of_free {s : String} (h : ∀ x ∈ s.data, isQuoteChar x = false) :
    removeQuotes s = s := by
  apply String.ext
  rw [removeQuotes_data]
  rw [List.filter_eq_self]
  intro a ha
  simp [h a ha]

theorem removeQuotes_cleanName (ext : String) (c : Capture) :
    removeQuotes (cleanName ext c) = cleanName ext c :=
  removeQuotes_id_of_free (cleanRaw_quote_free _)

theorem graphExt {g1 g2 : Graph} (hn : g1.nodes = g2.nodes) (he : g1.edges = g2.edges) :
    g1 = g2 := by
  cases g1
  cases g2
  simp only at hn he
  rw [hn, he]

theorem updateAssoc_present_of_eq {f : NodeAttrs → NodeAttrs} {i : String}
    {l : List (String × NodeAttrs)} (h : updateAssoc f i l = l) :
    (l.find? (fun p => p.1 == i)).isSome = true := by
  cases hf : l.find? (fun p => p.1 == i) with
  | some x => rfl
  | none =>
      exfalso
      have h2 := updateAssoc_absent (f := f) l hf
      rw [h] at h2
      have h3 := congrArg List.length h2
      simp at h3

theorem find?_isSome_updateAssoc {f : NodeAttrs → NodeAttrs} {i x : String}
    {l : List (String × NodeAttrs)} (h : (l.find? (fun p => p.1 == x)).isSome = true) :
    ((updateAssoc f i l).find? (fun p => p.1 == x)).isSome = true := by
  by_cases hx : (x == i) = true
  · have hxi : x = i := by simpa using hx
    subst hxi
    rw [find_updateAssoc_self]
    rfl
  · rw [find_updateAssoc_ne (by simpa using hx)]
    exact h

theorem updateAssoc_idem {f : NodeAttrs → NodeAttrs} {i : String}
    (hf : ∀ b, f (f b) = f b) :
    ∀ l : List (String × NodeAttrs),
      updateAssoc f i (updateAssoc f i l) = updateAssoc f i l
  | [] => by
      show updateAssoc f i [(i, f {})] = [(i, f {})]
      rw [updateAssoc, if_pos (by simp), hf]
  | (k, a) :: rest => by
      by_cases hk : (k == i) = true
      · rw [updateAssoc, if_pos hk, updateAssoc, if_pos hk, hf]
      · rw [updateAssoc, if_neg hk, updateAssoc, if_neg hk, updateAssoc_idem hf rest]

theorem updateAssoc_still {f g : NodeAttrs → NodeAttrs} {i j : String} (hij : i ≠ j) :
    ∀ l : List (String × NodeAttrs), updateAssoc f i l = l →
      updateAssoc f i (updateAssoc g j l) = updateAssoc g j l
  | [], h => by
      exfalso
      have h3 := congrArg List.length h
      simp [updateAssoc] at h3
  | (k, b) :: rest, h => by
      by_cases hkj : (k == j) = true
      · rw [updateAssoc, if_pos hkj]
        have hki : (k == i) = false := by
          have hkj2 : k = j := by simpa using hkj
          subst hkj2
          simp only [beq_eq_false_iff_ne]
          exact fun he => hij he.symm
        have h2 : updateAssoc f i ((k, b) :: rest) = (k, b) :: rest := h
        rw [updateAssoc, if_neg (by simp [hki])] at h2
        have h3 : updateAssoc f i rest = rest := by
          have := List.cons.injEq (k, b) (updateAssoc f i rest) (k, b) rest ▸ h2
          exact (List.cons.inj h2).2
        rw [updateAssoc, if_neg (by simp [hki]), h3]
      · rw [updateAssoc, if_neg hkj]
        by_cases hki : (k == i) = true
        · have h2 : updateAssoc f i ((k, b) :: rest) = (k, b) :: rest := h
          rw [updateAssoc, if_pos hki] at h2
          have hfb : f b = b := congrArg Prod.snd (List.cons.inj h2).1
          rw [updateAssoc, if_pos hki, hfb]
        · have h2 : updateAssoc f i ((k, b) :: rest) = (k, b) :: rest := h
          rw [updateAssoc, if_neg hki] at h2
          have h3 : updateAssoc f i rest = rest := (List.cons.inj h2).2
          rw [updateAssoc, if_neg hki, updateAssoc_still hij rest h3]

theorem updateEdges_idem (u v rel : String) :
    ∀ es : List (String × String × String),
      updateEdges u v rel (updateEdges u v rel es) = updateEdges u v rel es
  | [] => by
      show updateEdges u v rel [(u, v, rel)] = [(u, v, rel)]
      rw [updateEdges, if_pos (by simp)]
  | (a, b, r) :: rest => by
      by_cases hab : (a == u && b == v) = true
      · rw [updateEdges, if_pos hab, updateEdges, if_pos hab]
      · rw [updateEdges, if_neg hab, updateEdges, if_neg hab, updateEdges_idem u v rel rest]

theorem updateEdges_still {u v rel u2 v2 rel2 : String} (hne : ¬(u = u2 ∧ v = v2)) :
    ∀ es : List (String × String × String), updateEdges u v rel es = es →
      updateEdges u v rel (updateEdges u2 v2 rel2 es) = updateEdges u2 v2 rel2 es
  | [], h => by
      exfalso
      have h3 := congrArg List.length h
      simp [updateEdges] at h3
  | (a, b, r) :: rest, h => by
      by_cases hab2 : (a == u2 && b == v2) = true
      · rw [updateEdges, if_pos hab2]
        have hab : (a == u && b == v) = false := by
          simp only [Bool.and_eq_true, beq_iff_eq] at hab2
          cases hc : (a == u && b == v)
          · rfl
          · exfalso
            simp only [Bool.and_eq_true, beq_iff_eq] at hc
            exact hne ⟨hc.1.symm.trans hab2.1, hc.2.symm.trans hab2.2⟩
        have h2 : updateEdges u v rel ((a, b, r) :: rest) = (a, b, r) :: rest := h
        rw [updateEdges, if_neg (by simp [hab])] at h2
        have h3 : updateEdges u v rel rest = rest := (List.cons.inj h2).2
        rw [updateEdges, if_neg (by simp [hab]), h3]
      · rw [updateEdges, if_neg hab2]
        by_cases hab : (a == u && b == v) = true
        · have h2 : updateEdges u v rel ((a, b, r) :: rest) = (a, b, r) :: rest := h
          rw [updateEdges, if_pos hab] at h2
          have hrel : rel = r := by
            have := (List.cons.inj h2).1
            exact congrArg (fun e => e.2.2) this
          rw [updateEdges, if_pos hab, hrel]
        · have h2 : updateEdges u v rel ((a, b, r) :: rest) = (a, b, r) :: rest := h
          rw [updateEdges, if_neg hab] at h2
          have h3 : updateEdges u v rel rest = rest := (List.cons.inj h2).2
          rw [updateEdges, if_neg hab, updateEdges_still hne rest h3]

theorem procCap_writes_id {rp n : String} {G : Graph} (hq : dupState rp n G) :
    (G.addNodeWith (mkNodeId rp n) (setDefAttrs n)).addEdge rp (mkNodeId rp n) "contains"
      = G := by
  obtain ⟨q1, q2, q3⟩ := hq
  have hstep1 : G.addNodeWith (mkNodeId rp n) (setDefAttrs n) = G := graphExt q1 rfl
  rw [hstep1]
  have hrp : G.ensureNode rp = G :=
    graphExt (updateAssoc_present_id _ q3) rfl
  have hnid : G.ensureNode (mkNodeId rp n) = G :=
    graphExt (updateAssoc_present_id _ (updateAssoc_present_of_eq q1)) rfl
  show { (G.ensureNode rp).ensureNode (mkNodeId rp n) with
    edges := updateEdges rp (mkNodeId rp n) "contains"
      ((G.ensureNode rp).ensureNode (mkNodeId rp n)).edges } = G
  rw [hrp, hnid]
  exact graphExt rfl q2

theorem dupState_establish {rp ext : String} {c2 : Capture} {G : Graph}
    (hrp : (G.nodes.find? (fun p => p.1 == rp)).isSome = true)
    (hlab : c2.label = "name")
    (hval : is_valid_identifier (cleanName ext c2) = true) :
    dupState rp (cleanName ext c2) (processCapture rp ext G c2) := by
  unfold processCapture
  rw [if_pos (by simp [hlab]), if_pos hval]
  have hXrp : ((updateAssoc (setDefAttrs (cleanName ext c2))
      (mkNodeId rp (cleanName ext c2)) G.nodes).find?
        (fun p => p.1 == rp)).isSome = true := find?_isSome_updateAssoc hrp
  have hres : (G.addNodeWith (mkNodeId rp (cleanName ext c2))
      (setDefAttrs (cleanName ext c2))).addEdge rp
        (mkNodeId rp (cleanName ext c2)) "contains" =
      { nodes := updateAssoc (setDefAttrs (cleanName ext c2))
          (mkNodeId rp (cleanName ext c2)) G.nodes,
        edges := updateEdges rp (mkNodeId rp (cleanName ext c2)) "contains" G.edges } := by
    refine graphExt ?_ rfl
    show updateAssoc (fun x => x) (mkNodeId rp (cleanName ext c2))
        (updateAssoc (fun x => x) rp (updateAssoc _ _ G.nodes)) = _
    rw [updateAssoc_present_id _ hXrp]
    refine updateAssoc_present_id _ ?_
    rw [find_updateAssoc_self]
    rfl
  rw [hres]
  refine ⟨?_, ?_, hXrp⟩
  · show updateAssoc (setDefAttrs (cleanName ext c2)) (mkNodeId rp (cleanName ext c2))
        (updateAssoc (setDefAttrs (cleanName ext c2))
          (mkNodeId rp (cleanName ext c2)) G.nodes) = _
    exact updateAssoc_idem (f := setDefAttrs (cleanName ext c2)) (fun b => rfl) G.nodes
  · show updateEdges rp (mkNodeId rp (cleanName ext c2)) "contains"
        (updateEdges rp (mkNodeId rp (cleanName ext c2)) "contains" G.edges) = _
    exact updateEdges_idem _ _ _ G.edges

theorem procCap_rp_present {rp ext : String} (c : Capture) (G : Graph)
    (h : (G.nodes.find? (fun p => p.1 == rp)).isSome = true) :
    ((processCapture rp ext G c).nodes.find? (fun p => p.1 == rp)).isSome = true := by
  unfold processCapture
  by_cases hlab : (c.label == "name") = true
  · rw [if_pos hlab]
    by_cases hval : is_valid_identifier (cleanName ext c) = true
    · rw [if_pos hval]
      exact find?_isSome_updateAssoc (find?_isSome_updateAssoc (find?_isSome_updateAssoc h))
    · rw [if_neg hval]
      exact h
  · rw [if_neg hlab]
    exact h

theorem dupState_preserve {rp ext n : String} {G : Graph} (c : Capture)
    (hq : dupState rp n G) (hnq : removeQuotes n = n) :
    dupState rp n (processCapture rp ext G c) := by
  obtain ⟨q1, q2, q3⟩ := hq
  unfold processCapture
  by_cases hlab : (c.label == "name") = true
  · rw [if_pos hlab]
    by_cases hval : is_valid_identifier (cleanName ext c) = true
    · rw [if_pos hval]
      by_cases hnn : mkNodeId rp (cleanName ext c) = mkNodeId rp n
      · have hn2 : cleanName ext c = n := by
          have h1 := mkNodeId_inj_name hnn
          rw [removeQuotes_cleanName, hnq] at h1
          exact h1
        rw [hn2]
        rw [procCap_writes_id ⟨q1, q2, q3⟩]
        exact ⟨q1, q2, q3⟩
      · have hXrp : ((updateAssoc (setDefAttrs (cleanName ext c))
            (mkNodeId rp (cleanName ext c)) G.nodes).find?
              (fun p => p.1 == rp)).isSome = true := find?_isSome_updateAssoc q3
        have hres : (G.addNodeWith (mkNodeId rp (cleanName ext c))
            (setDefAttrs (cleanName ext c))).addEdge rp
              (mkNodeId rp (cleanName ext c)) "contains" =
            { nodes := updateAssoc (setDefAttrs (cleanName ext c))
                (mkNodeId rp (cleanName ext c)) G.nodes,
              edges := updateEdges rp (mkNodeId rp (cleanName ext c))
                "contains" G.edges } := by
          refine graphExt ?_ rfl
          show updateAssoc (fun x => x) (mkNodeId rp (cleanName ext c))
              (updateAssoc (fun x => x) rp (updateAssoc _ _ G.nodes)) = _
          rw [updateAssoc_present_id _ hXrp]
          refine updateAssoc_present_id _ ?_
          rw [find_updateAssoc_self]
          rfl
        rw [hres]
        refine ⟨?_, ?_, hXrp⟩
        · exact updateAssoc_still (fun he => hnn he.symm) G.nodes q1
        · exact updateEdges_still (fun hc => hnn hc.2.symm) G.edges q2
    · rw [if_neg hval]
      exact ⟨q1, q2, q3⟩
  · rw [if_neg hlab]
    exact ⟨q1, q2, q3⟩

theorem dupState_fold_preserve {rp ext n : String} (hnq : removeQuotes n = n) :
    ∀ (caps : List Capture) (G : Graph), dupState rp n G →
      dupState rp n (caps.foldl (processCapture rp ext) G)
  | [], _, h => h
  | c :: caps, G, h => by
      rw [List.foldl_cons]
      exact dupState_fold_preserve hnq caps _ (dupState_preserve c h hnq)

theorem dup_fold_establish {rp ext : String} {c2 : Capture}
    (hlab : c2.label = "name")
    (hval : is_valid_identifier (cleanName ext c2) = true) :
    ∀ (caps : List Capture) (G : Graph),
      (G.nodes.find? (fun p => p.1 == rp)).isSome = true → c2 ∈ caps →
      dupState rp (cleanName ext c2) (caps.foldl (processCapture rp ext) G)
  | [], _, _, hmem => absurd hmem (List.not_mem_nil _)
  | c :: caps, G, hrp, hmem => by
      rw [List.foldl_cons]
      rcases List.mem_cons.mp hmem with h1 | h1
      · subst h1
        exact dupState_fold_preserve (removeQuotes_cleanName ext c2) caps _
          (dupState_establish hrp hlab hval)
      · exact dup_fold_establish hlab hval caps _ (procCap_rp_present c G hrp) h1

theorem procCap_identity {rp ext : String} {c : Capture} {G : Graph}
    (hq : dupState rp (cleanName ext c) G)
    (hlab : c.label = "name")
    (hval : is_valid_identifier (cleanName ext c) = true) :
    processCapture rp ext G c = G := by
  unfold processCapture
  rw [if_pos (by simp [hlab]), if_pos hval]
  exact procCap_writes_id hq

theorem parse_file_dup_capture (g0 : Graph) (rp : String) (caps : List Capture)
    (c c2 : Capture)
    (hlab : c.label = "name") (hmem : c2 ∈ caps) (hlab2 : c2.label = "name")
    (hsame : cleanName (splitext (basenameOf rp)).2 c2 =
      cleanName (splitext (basenameOf rp)).2 c)
    (hval : is_valid_identifier (cleanName (splitext (basenameOf rp)).2 c) = true) :
    parse_file g0 rp (some (caps ++ [c])) = parse_file g0 rp (some caps) := by
  cases hr : registryLookup (basenameOf rp) with
  | none => simp only [parse_file, hr]
  | some cfg =>
      simp only [parse_file, hr]
      rw [List.foldl_append, List.foldl_cons, List.foldl_nil]
      have hrp : ((g0.addNodeWith rp
          (setFileAttrs (langTagOf (splitext (basenameOf rp)).2))).nodes.find?
            (fun p => p.1 == rp)).isSome = true := by
        show ((updateAssoc _ rp g0.nodes).find? _).isSome = true
        rw [find_updateAssoc_self]
        rfl
      have hq := dup_fold_establish hlab2 (hsame ▸ hval) caps _ hrp hmem
      rw [hsame] at hq
      exact procCap_identity hq hlab hval

/-- C7: in every graph produced by a build whose extracted (file, name) pairs
have injective node identities and whose definition identities never collide
with a file path, each definition node has exactly one incoming contains edge,
its source is the file node of the owning file (which carries the file type
tag); and within one file a later capture that cleans to an already-extracted
valid name leaves the graph unchanged: the duplicate coalesces into the
existing node, attributes are rewritten with the same values (last write wins
vacuously), and the contains edge set is unaffected. -/
theorem c7_contains_unique (files : List (String × Option (List Capture)))
    (contents : List (String × String))
    (hinj : ∀ p1 n1 p2 n2, (p1, n1) ∈ extractedDefs files →
      (p2, n2) ∈ extractedDefs files → mkNodeId p1 n1 = mkNodeId p2 n2 → p1 = p2)
    (hfd : ∀ p n q, (p, n) ∈ extractedDefs files → q ∈ filePaths files →
      mkNodeId p n ≠ q) :
    (∀ d a, (d, a) ∈ (build files contents).nodes → a.type = some "definition" →
      ∃ p n, (p, n) ∈ extractedDefs files ∧ d = mkNodeId p n ∧
        incomingContains (build files contents) d = [(p, d, "contains")] ∧
        ∃ fa, (build files contents).attrsOf p = some fa ∧ fa.type = some "file")
    ∧ (∀ (g0 : Graph) (rp : String) (caps : List Capture) (c c2 : Capture),
        c.label = "name" → c2 ∈ caps → c2.label = "name" →
        cleanName (splitext (basenameOf rp)).2 c2 =
          cleanName (splitext (basenameOf rp)).2 c →
        is_valid_identifier (cleanName (splitext (basenameOf rp)).2 c) = true →
        parse_file g0 rp (some (caps ++ [c])) = parse_file g0 rp (some caps)) :=
  ⟨build_contains_unique files contents hinj hfd,
    fun g0 rp caps c c2 hlab hmem hlab2 hsame hval =>
      parse_file_dup_capture g0 rp caps c c2 hlab hmem hlab2 hsame hval⟩

/-- C7 witness: a concrete two-file build where both side conditions hold, the
definition of calc_sum has exactly the one contains edge from its file, and a
duplicate capture changes nothing. -/
theorem c7_contains_unique_witness :
    (∀ p1 n1 p2 n2, (p1, n1) ∈ extractedDefs filesC7w →
      (p2, n2) ∈ extractedDefs filesC7w → mkNodeId p1 n1 = mkNodeId p2 n2 → p1 = p2)
    ∧ (∀ p n q, (p, n) ∈ extractedDefs filesC7w → q ∈ filePaths filesC7w →
        mkNodeId p n ≠ q)
    ∧ (∃ p n, (p, n) ∈ extractedDefs filesC7w ∧
        mkNodeId "m.py" "calc_sum" = mkNodeId p n ∧
        incomingContains (build filesC7w contentsC7w) (mkNodeId "m.py" "calc_sum") =
          [(p, mkNodeId "m.py" "calc_sum", "contains")] ∧
        ∃ fa, (build filesC7w contentsC7w).attrsOf p = some fa ∧ fa.type = some "file")
    ∧ parse_file Graph.empty "m.py"
        (some [{ label := "name", text := "calc_sum" },
               { label := "name", text := "calc_sum" }]) =
      parse_file Graph.empty "m.py" (some [{ label := "name", text := "calc_sum" }]) := by
  have hA : ∀ p1 n1 p2 n2, (p1, n1) ∈ extractedDefs filesC7w →
      (p2, n2) ∈ extractedDefs filesC7w → mkNodeId p1 n1 = mkNodeId p2 n2 → p1 = p2 := by
    intro p1 n1 p2 n2 h1 h2 heq
    have h1b : (p1, n1) ∈ [(("m.py" : String), ("calc_sum" : String)),
        ("u.py", "helper_fn")] := h1
    have h2b : (p2, n2) ∈ [(("m.py" : String), ("calc_sum" : String)),
        ("u.py", "helper_fn")] := h2
    simp only [List.mem_cons, List.mem_singleton, Prod.mk.injEq,
      List.not_mem_nil, or_false] at h1b h2b
    rcases h1b with ⟨e1, e2⟩ | ⟨e1, e2⟩ <;> rcases h2b with ⟨e3, e4⟩ | ⟨e3, e4⟩ <;>
      subst e1 <;> subst e2 <;> subst e3 <;> subst e4
    · rfl
    · exact absurd heq (by decide)
    · exact absurd heq (by decide)
    · rfl
  have hB : ∀ p n q, (p, n) ∈ extractedDefs filesC7w → q ∈ filePaths filesC7w →
      mkNodeId p n ≠ q := by
    intro p n q h1 h2
    have h1b : (p, n) ∈ [(("m.py" : String), ("calc_sum" : String)),
        ("u.py", "helper_fn")] := h1
    have h2b : q ∈ [("m.py" : String), "u.py"] := h2
    simp only [List.mem_cons, List.mem_singleton, Prod.mk.injEq,
      List.not_mem_nil, or_false] at h1b h2b
    rcases h1b with ⟨e1, e2⟩ | ⟨e1, e2⟩ <;> rcases h2b with e3 | e3 <;>
      subst e1 <;> subst e2 <;> subst e3 <;> exact (by decide)
  refine ⟨hA, hB, ?_, ?_⟩
  · exact (c7_contains_unique filesC7w contentsC7w hA hB).1 (mkNodeId "m.py" "calc_sum")
      { type := some "definition", name := some "calc_sum" } (by decide) rfl
  · exact (c7_contains_unique filesC7w contentsC7w hA hB).2 Graph.empty "m.py"
      [{ label := "name", text := "calc_sum" }] { label := "name", text := "calc_sum" }
      { label := "name", text := "calc_sum" } rfl (List.mem_singleton.mpr rfl) rfl rfl
      (by decide)

end PolyglotGraph
